import Mathlib

/-!
# go-iter: a shallow embedding of the pull-based iterator library

The Go package has one stateful source, `*SliceIterator[T]` (pointer receiver:
`Next` and `Advance` move its cursor in place), and two adapters, `mapIter` and
`filterIter`, which are immutable value structs holding the inner iterator and a
function.  In a chain built from `FromSlice` by `Map` and `Filter` the only cell
that is ever written is therefore the `SliceIterator` at the root.

The embedding follows that split:

* `SliceIterator T` is the root's state (`base`, `idx`), and its methods are
  state-passing functions;
* `Iterator S T` is the adapter chain above a root of element type `S`,
  yielding elements of type `T`;
* an operation of the `Iterator` interface takes the chain and the root state
  and returns its Go result together with the new root state.

Go's `int` is `Int`: while the cursor lies in `0 <= idx <= len(base)`, every
value computed from it stays between `-len(base)` and `len(base)`, and
`len(base)` is itself an `int`, so nothing wraps.  A run-time panic (index or
slice bounds out of range) is the result `none`.

The `for x, ok := it.Next(); ok; ...` loops carry a fuel argument that their
callers compute from the root state: each successful `Next` moves the cursor by
at least one, so `EstimatedRemaining + 1` rounds suffice, and the loop of
`filterIter.Advance` runs at most `n` rounds.  A loop that ran out of fuel
would return `none` as well; the theorems below give the `some` result of every
operation in every state whose cursor lies in the backing range.

The zero value of a Go type `T` is `default` of an `Inhabited T` instance.
`Sum` is generic in its element type; `SumInt64` is its instance at Go's `int`,
whose addition wraps modulo `2^64` (`wrap64`).
-/

namespace GoIter

/-! ## util.go -/

/-- The generic helper `min` of util.go: `a` when `a < b`, else `b`. -/
def min {T : Type} [LT T] [DecidableRel (fun (a b : T) => a < b)] (a b : T) : T :=
  if a < b then a else b

/-! ## slice.go -/

/-- The struct `SliceIterator[T]`: the backing slice and the cursor. -/
structure SliceIterator (T : Type) where
  base : List T
  idx : Int
  deriving DecidableEq

/-- The result of an operation that may panic: `none` is the panic, otherwise
the returned value and the root state afterwards. -/
abbrev Result (S α : Type) : Type := Option (α × SliceIterator S)

/-- `FromSlice` builds the root state with the cursor at zero. -/
def FromSlice {T : Type} (s : List T) : SliceIterator T :=
  { base := s, idx := 0 }

/-- `SliceIterator.EstimatedRemaining`: `len(s.base) - s.idx`. -/
def SliceIterator.EstimatedRemaining {T : Type} (s : SliceIterator T) : Int :=
  (s.base.length : Int) - s.idx

/-- `SliceIterator.Next`: when elements remain, read `s.base[s.idx]` (a negative
or too large index panics) and move the cursor by one; otherwise return the zero
value and false, leaving the state alone. -/
def SliceIterator.Next {T : Type} [Inhabited T] (s : SliceIterator T) : Result T (T × Bool) :=
  if s.EstimatedRemaining > 0 then
    if s.idx < 0 then none
    else
      match s.base[s.idx.toNat]? with
      | none => none
      | some out => some ((out, true), { s with idx := s.idx + 1 })
  else some ((default, false), s)

/-- `SliceIterator.Advance`: `adv := min(n, EstimatedRemaining()); s.idx += adv`. -/
def SliceIterator.Advance {T : Type} (s : SliceIterator T) (n : Int) : Int × SliceIterator T :=
  let adv := GoIter.min n s.EstimatedRemaining
  (adv, { s with idx := s.idx + adv })

/-- `SliceIterator.Collect`: `slices.Clone(s.base[s.idx:])`.  The slice expression
panics unless `0 <= idx <= len`; the cursor is not written. -/
def SliceIterator.Collect {T : Type} (s : SliceIterator T) : Result T (List T) :=
  if s.idx < 0 ∨ (s.base.length : Int) < s.idx then none
  else some (s.base.drop s.idx.toNat, s)

/-- `SliceIterator.Reset`: the cursor goes back to zero. -/
def SliceIterator.Reset {T : Type} (s : SliceIterator T) : SliceIterator T :=
  { s with idx := 0 }

/-! ## iter.go: the adapters -/

/-- The adapter chain above a slice root with elements of type `S`: the root
itself (`slice`), `mapIter{i, mapper}` and `filterIter{i, filter}`. -/
inductive Iterator (S : Type) : Type → Type 1 where
  | slice [Inhabited S] : Iterator S S
  | mapIter {T U : Type} [Inhabited U] (i : Iterator S T) (mapper : T → U) : Iterator S U
  | filterIter {T : Type} (i : Iterator S T) (filter : T → Bool) : Iterator S T

/-- `Map` wraps an iterator in a `mapIter`. -/
def Map {S T U : Type} [Inhabited U] (i : Iterator S T) (mapper : T → U) : Iterator S U :=
  Iterator.mapIter i mapper

/-- `Filter` wraps an iterator in a `filterIter`. -/
def Filter {S T : Type} (i : Iterator S T) (filter : T → Bool) : Iterator S T :=
  Iterator.filterIter i filter

/-- The loop of `filterIter.Next`: pull from the inner iterator until an element
passes the predicate (return it with true) or the inner iterator reports
exhaustion (return what it returned, with false). -/
def filterNextLoop {S T : Type} (next : SliceIterator S → Result S (T × Bool)) (filter : T → Bool) :
    Nat → SliceIterator S → Result S (T × Bool)
  | 0, _ => none
  | fuel + 1, s =>
    match next s with
    | none => none
    | some ((t, ok), s1) =>
      if ok then
        if filter t then some ((t, true), s1)
        else filterNextLoop next filter fuel s1
      else some ((t, false), s1)

/-- The rounds a pull loop over a chain can need in root state `s`. -/
def loopFuel {S : Type} (s : SliceIterator S) : Nat :=
  s.EstimatedRemaining.toNat + 1

/-- `Next` of the interface, by the dynamic type of the iterator. -/
def Iterator.Next {S : Type} : {T : Type} → Iterator S T → SliceIterator S → Result S (T × Bool)
  | _, Iterator.slice, s => s.Next
  | _, Iterator.mapIter i mapper, s =>
    match i.Next s with
    | none => none
    | some ((item, ok), s1) =>
      if ok then some ((mapper item, ok), s1)
      else some ((default, false), s1)
  | _, Iterator.filterIter i filter, s => filterNextLoop (fun r => i.Next r) filter (loopFuel s) s

/-- The loop of `filterIter.Advance`: `for i := 0; i < n; i++`, returning `i`
at the first `Next` that reports exhaustion and `n` when the loop ends. -/
def filterAdvanceLoop {S T : Type} (next : SliceIterator S → Result S (T × Bool)) (n : Int) :
    Nat → Int → SliceIterator S → Result S Int
  | 0, i, s => if i < n then none else some (n, s)
  | fuel + 1, i, s =>
    if i < n then
      match next s with
      | none => none
      | some ((_, ok), s1) =>
        if !ok then some (i, s1)
        else filterAdvanceLoop next n fuel (i + 1) s1
    else some (n, s)

/-- `Advance` of the interface: the slice moves its cursor, `mapIter` delegates
to the inner iterator, `filterIter` calls its own `Next` up to `n` times. -/
def Iterator.Advance {S : Type} : {T : Type} → Iterator S T → Int → SliceIterator S → Result S Int
  | _, Iterator.slice, n, s => some (s.Advance n)
  | _, Iterator.mapIter i _, n, s => i.Advance n s
  | _, Iterator.filterIter i filter, n, s =>
    filterAdvanceLoop (Iterator.filterIter i filter).Next n n.toNat 0 s

/-- `EstimatedRemaining` of the interface: exact for the slice, forwarded by
`mapIter`, the constant 0 for `filterIter`. -/
def Iterator.EstimatedRemaining {S : Type} : {T : Type} → Iterator S T → SliceIterator S → Int
  | _, Iterator.slice, s => s.EstimatedRemaining
  | _, Iterator.mapIter i _, s => i.EstimatedRemaining s
  | _, Iterator.filterIter _ _, _ => 0

/-- The loop of `mapIter.Collect`: append `mapper(item)` for every item pulled
from the inner iterator. -/
def mapCollectLoop {S T U : Type} (next : SliceIterator S → Result S (T × Bool)) (mapper : T → U) :
    Nat → List U → SliceIterator S → Result S (List U)
  | 0, _, _ => none
  | fuel + 1, out, s =>
    match next s with
    | none => none
    | some ((item, ok), s1) =>
      if ok then mapCollectLoop next mapper fuel (out ++ [mapper item]) s1
      else some (out, s1)

/-- The loop of `filterIter.Collect`,
`for t, ok := f.Next(); ok; t, ok = f.Next() { out = append(out, t) }`:
append every element that `Next` yields. -/
def collectLoop {S T : Type} (next : SliceIterator S → Result S (T × Bool)) :
    Nat → List T → SliceIterator S → Result S (List T)
  | 0, _, _ => none
  | fuel + 1, out, s =>
    match next s with
    | none => none
    | some ((t, ok), s1) =>
      if ok then collectLoop next fuel (out ++ [t]) s1
      else some (out, s1)

/-- `Collect` of the interface. -/
def Iterator.Collect {S : Type} : {T : Type} → Iterator S T → SliceIterator S → Result S (List T)
  | _, Iterator.slice, s => s.Collect
  | _, Iterator.mapIter i mapper, s => mapCollectLoop i.Next mapper (loopFuel s) [] s
  | _, Iterator.filterIter i filter, s =>
    collectLoop (Iterator.filterIter i filter).Next (loopFuel s) [] s

/-! ## iter.go: the terminal operations -/

/-- The loop of `Fold`: `acc = step(acc, next)` for every element pulled. -/
def foldLoop {S T Acc : Type} (next : SliceIterator S → Result S (T × Bool)) (step : Acc → T → Acc) :
    Nat → Acc → SliceIterator S → Result S Acc
  | 0, _, _ => none
  | fuel + 1, acc, s =>
    match next s with
    | none => none
    | some ((item, ok), s1) =>
      if ok then foldLoop next step fuel (step acc item) s1
      else some (acc, s1)

/-- `Fold` accumulates a value by applying the step function to each element. -/
def Fold {S T Acc : Type} (i : Iterator S T) (s : SliceIterator S) (acc : Acc)
    (step : Acc → T → Acc) : Result S Acc :=
  foldLoop i.Next step (loopFuel s) acc s

/-- `Reduce`: the first element seeds the fold; an empty iterator gives what
`Next` returned together with false. -/
def Reduce {S T : Type} (i : Iterator S T) (s : SliceIterator S) (step : T → T → T) :
    Result S (T × Bool) :=
  match i.Next s with
  | none => none
  | some ((acc, ok), s1) =>
    if !ok then some ((acc, ok), s1)
    else
      match Fold i s1 acc step with
      | none => none
      | some (r, s2) => some ((r, true), s2)

/-- `Count`: a fold that increments a counter starting at 0. -/
def Count {S T : Type} (i : Iterator S T) (s : SliceIterator S) : Result S Int :=
  Fold i s (0 : Int) (fun sz _ => sz + 1)

/-- `Sum`: a fold with addition starting at 0. -/
def Sum {S T : Type} [Zero T] [Add T] (i : Iterator S T) (s : SliceIterator S) : Result S T :=
  Fold i s (0 : T) (fun a b => a + b)

/-- The value a 64-bit Go `int` holds after an operation whose exact result is
`x`: `x` reduced modulo `2^64` into `-2^63 <= . < 2^63`. -/
def wrap64 (x : Int) : Int :=
  (x + 2 ^ 63) % 2 ^ 64 - 2 ^ 63

/-- `Sum` at the element type `int`, the `+` being that of a 64-bit Go `int`,
which wraps around. -/
def SumInt64 {S : Type} (i : Iterator S Int) (s : SliceIterator S) : Result S Int :=
  Fold i s (0 : Int) (fun a b => wrap64 (a + b))

/-- The test function `double` on a 64-bit Go `int`: `i * 2`, wrapping around. -/
def double64 (i : Int) : Int := wrap64 (i * 2)

/-- `Max`: `Reduce` keeping `a` when `a > b` and `b` otherwise. -/
def Max {S T : Type} [LT T] [DecidableRel (fun (a b : T) => a < b)]
    (i : Iterator S T) (s : SliceIterator S) : Result S (T × Bool) :=
  Reduce i s (fun a b => if a > b then a else b)

/-- `Min`: `Reduce` keeping `a` when `a < b` and `b` otherwise. -/
def Min {S T : Type} [LT T] [DecidableRel (fun (a b : T) => a < b)]
    (i : Iterator S T) (s : SliceIterator S) : Result S (T × Bool) :=
  Reduce i s (fun a b => if a < b then a else b)

/-- `MinBy`: `Reduce` keeping `a` when `less(a, b)` and `b` otherwise. -/
def MinBy {S T : Type} (i : Iterator S T) (s : SliceIterator S) (less : T → T → Bool) :
    Result S (T × Bool) :=
  Reduce i s (fun a b => if less a b then a else b)

/-- `MaxBy`: `Reduce` keeping `b` when `less(a, b)` and `a` otherwise. -/
def MaxBy {S T : Type} (i : Iterator S T) (s : SliceIterator S) (less : T → T → Bool) :
    Result S (T × Bool) :=
  Reduce i s (fun a b => if less a b then b else a)

/-- The loop of `Last`: remember the latest element pulled and that there was one. -/
def lastLoop {S T : Type} (next : SliceIterator S → Result S (T × Bool)) :
    Nat → T → Bool → SliceIterator S → Result S (T × Bool)
  | 0, _, _, _ => none
  | fuel + 1, lastOk, atLeastOne, s =>
    match next s with
    | none => none
    | some ((t, ok), s1) =>
      if ok then lastLoop next fuel t true s1
      else some ((lastOk, atLeastOne), s1)

/-- `Last`: when `EstimatedRemaining() > 1`, first `Advance(EstimatedRemaining() - 1)`;
then pull to the end and return the latest element seen. -/
def Last {S T : Type} [Inhabited T] (i : Iterator S T) (s : SliceIterator S) :
    Result S (T × Bool) :=
  if i.EstimatedRemaining s > 1 then
    match i.Advance (i.EstimatedRemaining s - 1) s with
    | none => none
    | some (_, s1) => lastLoop i.Next (loopFuel s1) default false s1
  else lastLoop i.Next (loopFuel s) default false s

/-- `Empty` is `FromSlice` of the empty slice. -/
def Empty {T : Type} : SliceIterator T :=
  FromSlice ([] : List T)

/-! ## iter_test.go: the fixtures of the tests -/

/-- The test slice `sampleInts`. -/
def sampleInts : List Int := [0, 1, 2, 3, 4, 5, 6, 7, 8, 9]

/-- The test predicate `isEven`: `i%2 == 0`, with Go's truncating remainder. -/
def isEven (i : Int) : Bool := Int.tmod i 2 == 0

/-- The test function `double`: `i * 2`. -/
def double (i : Int) : Int := i * 2

/-- The strings `data` of `TestComprehensive`. -/
def data : List String :=
  ["hello", "world", "this", "world", "is", "ted", "shiny buttons"]

/-- The comparison of `TestComprehensive`: `len(a) < len(b)`. -/
def lenLess (a b : String) : Bool := decide (a.length < b.length)

/-! ## Vocabulary of the statements -/

variable {S T U Acc : Type}

/-- The cursor lies in the backing range: `0 <= idx <= len(base)`. -/
@[reducible] def SliceIterator.WF (s : SliceIterator T) : Prop :=
  0 ≤ s.idx ∧ s.idx ≤ (s.base.length : Int)

/-- The elements of the backing slice from the cursor on. -/
def SliceIterator.remaining (s : SliceIterator T) : List T :=
  s.base.drop s.idx.toNat

/-- The same backing slice with the cursor at its end. -/
def SliceIterator.atEnd (s : SliceIterator T) : SliceIterator T :=
  { s with idx := (s.base.length : Int) }

/-- The elements a chain passes on when its root still holds `l`: a `mapIter`
transforms each one, a `filterIter` keeps those that satisfy its predicate. -/
def Iterator.elems {S : Type} : {T : Type} → Iterator S T → List S → List T
  | _, Iterator.slice, l => l
  | _, Iterator.mapIter i mapper, l => (i.elems l).map mapper
  | _, Iterator.filterIter i filter, l => (i.elems l).filter filter

/-- The value a chain returns next to `false`: the zero value of its element
type (`filterIter` hands on what its inner iterator returned). -/
def Iterator.zero {S : Type} : {T : Type} → Iterator S T → T
  | _, Iterator.slice => default
  | _, Iterator.mapIter _ _ => default
  | _, Iterator.filterIter i _ => i.zero

/-- Calling `Next` `n` times and discarding the elements; the result counts the
calls that returned true. -/
def nextN (next : SliceIterator S → Result S (T × Bool)) :
    Nat → SliceIterator S → Result S Int
  | 0, s => some (0, s)
  | n + 1, s =>
    match next s with
    | none => none
    | some ((_, ok), s1) =>
      match nextN next n s1 with
      | none => none
      | some (k, s2) => some ((if ok then k + 1 else k), s2)

/-- The naive linear scan for the last element: the loop of `Last` without the
`Advance` shortcut. -/
def naiveLast [Inhabited T] (i : Iterator S T) (s : SliceIterator S) : Result S (T × Bool) :=
  lastLoop i.Next (loopFuel s) default false s

/-- A strict weak ordering given as a Go `less` function: irreflexive,
transitive, and with a transitive incomparability relation. -/
def StrictWeakOrder (less : T → T → Bool) : Prop :=
  (∀ a, less a a = false) ∧
    (∀ a b c, less a b = true → less b c = true → less a c = true) ∧
    (∀ a b c, less a b = false → less b a = false → less b c = false → less c b = false →
      less a c = false ∧ less c a = false)

/-- The states an iterator `i` over `FromSlice xs` can be in after any sequence
of `Next` and `Advance(n)` calls with `n >= 0`. -/
inductive Reachable (i : Iterator S T) (xs : List S) : SliceIterator S → Prop where
  | start : Reachable i xs (FromSlice xs)
  | next {s s1 : SliceIterator S} {r : T × Bool} :
      Reachable i xs s → i.Next s = some (r, s1) → Reachable i xs s1
  | advance {s s1 : SliceIterator S} {n k : Int} :
      Reachable i xs s → 0 ≤ n → i.Advance n s = some (k, s1) → Reachable i xs s1

/-! ## The slice source in a well-formed state -/

theorem SliceIterator.wf_fromSlice (xs : List T) : (FromSlice xs).WF := by
  simp [FromSlice, SliceIterator.WF]

theorem SliceIterator.remaining_fromSlice (xs : List T) : (FromSlice xs).remaining = xs := by
  simp [FromSlice, SliceIterator.remaining]

theorem SliceIterator.wf_atEnd (s : SliceIterator T) : s.atEnd.WF := by
  simp [SliceIterator.atEnd, SliceIterator.WF]

theorem SliceIterator.remaining_atEnd (s : SliceIterator T) : s.atEnd.remaining = [] := by
  simp [SliceIterator.atEnd, SliceIterator.remaining]

theorem SliceIterator.length_remaining (s : SliceIterator T) (h : s.WF) :
    (s.remaining.length : Int) = s.EstimatedRemaining := by
  obtain ⟨h0, h1⟩ := h
  simp only [SliceIterator.remaining, SliceIterator.EstimatedRemaining, List.length_drop]
  omega

theorem SliceIterator.eq_atEnd_of_remaining_nil (s : SliceIterator T) (h : s.WF)
    (hr : s.remaining = []) : s = s.atEnd := by
  have hl := s.length_remaining h
  rw [hr] at hl
  simp only [SliceIterator.EstimatedRemaining, List.length_nil] at hl
  cases s with
  | mk base idx =>
    simp only [SliceIterator.atEnd, SliceIterator.mk.injEq, true_and]
    simp only at hl
    omega

theorem SliceIterator.next_nil [Inhabited T] (s : SliceIterator T) (h : s.WF)
    (hr : s.remaining = []) : s.Next = some ((default, false), s.atEnd) := by
  have hl := s.length_remaining h
  rw [hr] at hl
  have he := s.eq_atEnd_of_remaining_nil h hr
  have : ¬ s.EstimatedRemaining > 0 := by
    simp only [List.length_nil] at hl
    omega
  rw [SliceIterator.Next, if_neg this, ← he]

theorem SliceIterator.next_cons [Inhabited T] (s : SliceIterator T) (h : s.WF) (t : T)
    (ts : List T) (hr : s.remaining = t :: ts) :
    s.Next = some ((t, true), { s with idx := s.idx + 1 }) ∧
      ({ s with idx := s.idx + 1 } : SliceIterator T).WF ∧
      ({ s with idx := s.idx + 1 } : SliceIterator T).remaining = ts := by
  have hl := s.length_remaining h
  rw [hr] at hl
  simp only [List.length_cons] at hl
  obtain ⟨h0, h1⟩ := h
  have hpos : s.EstimatedRemaining > 0 := by omega
  have hlt : s.idx.toNat < s.base.length := by
    simp only [SliceIterator.EstimatedRemaining] at hpos
    omega
  have hget : s.base[s.idx.toNat]? = some t := by
    have := List.getElem?_drop s.base s.idx.toNat 0
    simp only [SliceIterator.remaining] at hr
    rw [hr] at this
    simpa using this.symm
  have hn : (s.idx + 1).toNat = s.idx.toNat + 1 := by omega
  refine ⟨?_, ?_, ?_⟩
  · rw [SliceIterator.Next, if_pos hpos, if_neg (by omega)]
    simp only [hget]
  · simp only [SliceIterator.WF, SliceIterator.EstimatedRemaining] at *
    omega
  · simp only [SliceIterator.remaining, hn]
    simp only [SliceIterator.remaining] at hr
    rw [← List.drop_drop, hr]
    rfl

/-! ## `Next` of a chain in a well-formed state -/

theorem Iterator.elems_nil (i : Iterator S T) : i.elems [] = [] := by
  induction i with
  | slice => rfl
  | mapIter i mapper ih => simp [Iterator.elems, ih]
  | filterIter i filter ih => simp [Iterator.elems, ih]

theorem loopFuel_lt_of_idx_lt (s s1 : SliceIterator S) (hb : s1.base = s.base)
    (hlt : s.idx < s1.idx) (h : s1.idx ≤ (s1.base.length : Int)) {fuel : Nat}
    (hf : loopFuel s ≤ fuel + 1) : loopFuel s1 ≤ fuel := by
  simp only [loopFuel, SliceIterator.EstimatedRemaining, hb] at *
  omega

/-- The loop of `filterIter.Next` over an inner `next` that behaves as `i.Next`
does: it stops at the first element satisfying the predicate. -/
theorem filterNextLoop_spec (i : Iterator S T) (filter : T → Bool)
    (hnil : ∀ s : SliceIterator S, s.WF → i.elems s.remaining = [] →
      i.Next s = some ((i.zero, false), s.atEnd))
    (hcons : ∀ s : SliceIterator S, s.WF → ∀ t ts, i.elems s.remaining = t :: ts →
      ∃ s1, i.Next s = some ((t, true), s1) ∧ s1.WF ∧ s1.base = s.base ∧ s.idx < s1.idx ∧
        i.elems s1.remaining = ts)
    (fuel : Nat) :
    ∀ s : SliceIterator S, s.WF → loopFuel s ≤ fuel →
      (((i.elems s.remaining).filter filter = [] →
        filterNextLoop (fun r => i.Next r) filter fuel s = some ((i.zero, false), s.atEnd)) ∧
      (∀ t ts, (i.elems s.remaining).filter filter = t :: ts →
        ∃ s1, filterNextLoop (fun r => i.Next r) filter fuel s = some ((t, true), s1) ∧
          s1.WF ∧ s1.base = s.base ∧ s.idx < s1.idx ∧
          (i.elems s1.remaining).filter filter = ts)) := by
  induction fuel with
  | zero =>
    intro s _ hf
    simp [loopFuel] at hf
  | succ fuel ih =>
    intro s hs hf
    cases hel : i.elems s.remaining with
    | nil =>
      have hn := hnil s hs hel
      refine ⟨fun _ => ?_, fun t ts h => ?_⟩
      · simp [filterNextLoop, hn]
      · simp at h
    | cons u us =>
      obtain ⟨s1, hn, hs1, hb, hlt, hrest⟩ := hcons s hs u us hel
      have hf1 : loopFuel s1 ≤ fuel := loopFuel_lt_of_idx_lt s s1 hb hlt hs1.2 hf
      have ih1 := ih s1 hs1 hf1
      have hend : s1.atEnd = s.atEnd := by simp [SliceIterator.atEnd, hb]
      by_cases hp : filter u = true
      · refine ⟨fun h => ?_, fun t ts h => ?_⟩
        · simp [List.filter_cons, hp] at h
        · simp only [List.filter_cons, hp, if_true, List.cons.injEq] at h
          obtain ⟨rfl, rfl⟩ := h
          exact ⟨s1, by simp [filterNextLoop, hn, hp], hs1, hb, hlt, by rw [hrest]⟩
      · have hfl : (u :: us).filter filter = (i.elems s1.remaining).filter filter := by
          simp [List.filter_cons, hp, hrest]
        refine ⟨fun h => ?_, fun t ts h => ?_⟩
        · rw [hfl] at h
          simp only [filterNextLoop, hn, if_true, hp]
          rw [← hend]
          exact ih1.1 h
        · rw [hfl] at h
          obtain ⟨s2, h2, hs2, hb2, hlt2, hr2⟩ := ih1.2 t ts h
          refine ⟨s2, ?_, hs2, hb2.trans hb, lt_trans hlt hlt2, hr2⟩
          simp only [filterNextLoop, hn, if_true, hp]
          exact h2

/-- In a well-formed state `Next` of a chain returns the first of the elements
still to come and leaves the rest, or, when none is left, returns the zero value
and false with the cursor at the end. -/
theorem Iterator.next_spec (i : Iterator S T) :
    ∀ s : SliceIterator S, s.WF →
      ((i.elems s.remaining = [] → i.Next s = some ((i.zero, false), s.atEnd)) ∧
      (∀ t ts, i.elems s.remaining = t :: ts →
        ∃ s1, i.Next s = some ((t, true), s1) ∧ s1.WF ∧ s1.base = s.base ∧ s.idx < s1.idx ∧
          i.elems s1.remaining = ts)) := by
  induction i with
  | slice =>
    intro s hs
    refine ⟨fun h => s.next_nil hs h, fun t ts h => ?_⟩
    obtain ⟨h1, h2, h3⟩ := s.next_cons hs t ts h
    exact ⟨_, h1, h2, rfl, by simp, h3⟩
  | mapIter i mapper ih =>
    intro s hs
    obtain ⟨ihn, ihc⟩ := ih s hs
    refine ⟨fun h => ?_, fun t ts h => ?_⟩
    · have h1 : i.elems s.remaining = [] := by simpa [Iterator.elems] using h
      simp [Iterator.Next, ihn h1, Iterator.zero]
    · simp only [Iterator.elems] at h
      cases hel : i.elems s.remaining with
      | nil => simp [hel] at h
      | cons u us =>
        rw [hel] at h
        simp only [List.map_cons, List.cons.injEq] at h
        obtain ⟨s1, hn, hs1, hb, hlt, hrest⟩ := ihc u us hel
        refine ⟨s1, ?_, hs1, hb, hlt, ?_⟩
        · simp [Iterator.Next, hn, h.1]
        · simp [Iterator.elems, hrest, h.2]
  | filterIter i filter ih =>
    intro s hs
    have key := filterNextLoop_spec i filter (fun s hs => (ih s hs).1) (fun s hs => (ih s hs).2)
      (loopFuel s) s hs (le_refl _)
    simpa [Iterator.Next, Iterator.elems, Iterator.zero] using key

/-! ## The terminal loops -/

/-- The loop of `Fold` over a chain is the left fold over the elements still to
come, and it leaves the cursor at the end. -/
theorem foldLoop_spec (i : Iterator S T) (step : Acc → T → Acc) (fuel : Nat) :
    ∀ (s : SliceIterator S) (acc : Acc), s.WF → loopFuel s ≤ fuel →
      foldLoop i.Next step fuel acc s =
        some (List.foldl step acc (i.elems s.remaining), s.atEnd) := by
  induction fuel with
  | zero =>
    intro s _ _ hf
    simp [loopFuel] at hf
  | succ fuel ih =>
    intro s acc hs hf
    obtain ⟨hn, hc⟩ := i.next_spec s hs
    cases hel : i.elems s.remaining with
    | nil => simp [foldLoop, hn hel]
    | cons u us =>
      obtain ⟨s1, h1, hs1, hb, hlt, hrest⟩ := hc u us hel
      have hf1 : loopFuel s1 ≤ fuel := loopFuel_lt_of_idx_lt s s1 hb hlt hs1.2 hf
      have hend : s1.atEnd = s.atEnd := by simp [SliceIterator.atEnd, hb]
      simp only [foldLoop, h1, if_true, List.foldl_cons]
      rw [ih s1 (step acc u) hs1 hf1, hrest, hend]

theorem Fold_spec (i : Iterator S T) (s : SliceIterator S) (hs : s.WF) (acc : Acc)
    (step : Acc → T → Acc) :
    Fold i s acc step = some (List.foldl step acc (i.elems s.remaining), s.atEnd) :=
  foldLoop_spec i step (loopFuel s) s acc hs (le_refl _)

theorem foldl_count (l : List T) (a : Int) :
    List.foldl (fun (sz : Int) (_ : T) => sz + 1) a l = a + (l.length : Int) := by
  induction l generalizing a with
  | nil => simp
  | cons x xs ih =>
    simp only [List.foldl_cons, ih, List.length_cons]
    push_cast
    ring

theorem Count_spec (i : Iterator S T) (s : SliceIterator S) (hs : s.WF) :
    Count i s = some (((i.elems s.remaining).length : Int), s.atEnd) := by
  simp [Count, Fold_spec i s hs, foldl_count]

theorem Reduce_spec_nil (i : Iterator S T) (s : SliceIterator S) (hs : s.WF)
    (step : T → T → T) (h : i.elems s.remaining = []) :
    Reduce i s step = some ((i.zero, false), s.atEnd) := by
  simp [Reduce, (i.next_spec s hs).1 h]

theorem Reduce_spec_cons (i : Iterator S T) (s : SliceIterator S) (hs : s.WF)
    (step : T → T → T) (e : T) (es : List T) (h : i.elems s.remaining = e :: es) :
    Reduce i s step = some ((List.foldl step e es, true), s.atEnd) := by
  obtain ⟨s1, h1, hs1, hb, _, hrest⟩ := (i.next_spec s hs).2 e es h
  have hend : s1.atEnd = s.atEnd := by simp [SliceIterator.atEnd, hb]
  simp [Reduce, h1, Fold_spec i s1 hs1, hrest, hend]

/-! ## Claims about the terminal operations on the slice source -/

/-- C1: on a slice-backed iterator whose cursor lies in the backing range, `Fold`
returns the left fold of `step` over the remaining elements in encounter order,
seeded with `acc`; it returns `acc` itself when nothing remains; and afterwards
the iterator is exhausted: no element remains, `EstimatedRemaining` is 0 and
`Next` returns the zero value and false. -/
theorem Fold_slice_left_fold [Inhabited T] (s : SliceIterator T) (h : s.WF) (acc : Acc)
    (step : Acc → T → Acc) :
    Fold Iterator.slice s acc step = some (List.foldl step acc s.remaining, s.atEnd) ∧
      (s.remaining = [] → Fold Iterator.slice s acc step = some (acc, s.atEnd)) ∧
      s.atEnd.remaining = [] ∧ s.atEnd.EstimatedRemaining = 0 ∧
      Iterator.slice.Next s.atEnd = some ((default, false), s.atEnd) := by
  have hf := Fold_spec Iterator.slice s h acc step
  simp only [Iterator.elems] at hf
  refine ⟨hf, fun hr => ?_, s.remaining_atEnd, ?_, ?_⟩
  · rw [hf, hr]
    rfl
  · simp [SliceIterator.atEnd, SliceIterator.EstimatedRemaining]
  · have := s.atEnd.next_nil s.wf_atEnd s.remaining_atEnd
    simpa [Iterator.Next, SliceIterator.atEnd] using this

theorem Fold_slice_left_fold_witness :
    (FromSlice [(1 : Int), 2, 3]).WF ∧
      Fold Iterator.slice (FromSlice [(1 : Int), 2, 3]) (10 : Int) (fun a b => a * b) =
        some (List.foldl (fun a b => a * b) 10 (FromSlice [(1 : Int), 2, 3]).remaining,
          (FromSlice [(1 : Int), 2, 3]).atEnd) :=
  ⟨by decide, (Fold_slice_left_fold (FromSlice [(1 : Int), 2, 3]) (by decide) 10
    (fun a b => a * b)).1⟩

/-- C2: on a slice-backed iterator whose cursor lies in the backing range,
`Reduce` returns the zero value and false when nothing remains, and otherwise the
left fold of `step` over the later elements seeded with the first one, together
with true; so the flag is false exactly on an empty iterator, and on a single
remaining element that element is returned whatever `step` is. -/
theorem Reduce_slice_absent_iff_empty [Inhabited T] (s : SliceIterator T) (h : s.WF)
    (step : T → T → T) :
    (s.remaining = [] → Reduce Iterator.slice s step = some ((default, false), s)) ∧
      (∀ e es, s.remaining = e :: es →
        Reduce Iterator.slice s step = some ((List.foldl step e es, true), s.atEnd)) ∧
      (∀ e, s.remaining = [e] → Reduce Iterator.slice s step = some ((e, true), s.atEnd)) ∧
      (∃ r, Reduce Iterator.slice s step = some r ∧ (r.1.2 = false ↔ s.remaining = [])) := by
  have hnil : s.remaining = [] → Reduce Iterator.slice s step = some ((default, false), s) := by
    intro hr
    have := Reduce_spec_nil Iterator.slice s h step (by simpa [Iterator.elems] using hr)
    rw [← s.eq_atEnd_of_remaining_nil h hr] at this
    simpa [Iterator.zero] using this
  have hcons : ∀ e es, s.remaining = e :: es →
      Reduce Iterator.slice s step = some ((List.foldl step e es, true), s.atEnd) :=
    fun e es hr => Reduce_spec_cons Iterator.slice s h step e es
      (by simpa [Iterator.elems] using hr)
  refine ⟨hnil, hcons, fun e hr => hcons e [] hr, ?_⟩
  cases hr : s.remaining with
  | nil => exact ⟨_, hnil hr, by simp⟩
  | cons e es => exact ⟨_, hcons e es hr, by simp⟩

theorem Reduce_slice_absent_iff_empty_witness :
    (FromSlice [(7 : Int)]).WF ∧
      (∀ e, (FromSlice [(7 : Int)]).remaining = [e] →
        Reduce Iterator.slice (FromSlice [(7 : Int)]) (fun _ _ => 0) =
          some ((e, true), (FromSlice [(7 : Int)]).atEnd)) :=
  ⟨by decide, (Reduce_slice_absent_iff_empty (FromSlice [(7 : Int)]) (by decide)
    (fun _ _ => 0)).2.2.1⟩

/-- C3: `Count` on `FromSlice xs` is `len(xs)`, and on a slice-backed iterator
with cursor `0 <= idx <= len` it is `len - idx`, the number of elements still
producible; the count comes from pulling every element, so the cursor ends at the
end of the backing slice. -/
theorem Count_slice_exact [Inhabited T] :
    (∀ xs : List T, Count Iterator.slice (FromSlice xs) =
        some ((xs.length : Int), (FromSlice xs).atEnd)) ∧
      (∀ s : SliceIterator T, s.WF →
        Count Iterator.slice s = some ((s.base.length : Int) - s.idx, s.atEnd) ∧
          (s.remaining.length : Int) = (s.base.length : Int) - s.idx) := by
  refine ⟨fun xs => ?_, fun s hs => ?_⟩
  · rw [Count_spec Iterator.slice _ (SliceIterator.wf_fromSlice xs)]
    simp [Iterator.elems, SliceIterator.remaining_fromSlice]
  · have hl := s.length_remaining hs
    rw [Count_spec Iterator.slice s hs]
    simp only [Iterator.elems, hl, SliceIterator.EstimatedRemaining, and_self]

theorem Count_slice_exact_witness :
    (⟨[(4 : Int), 5, 6], 1⟩ : SliceIterator Int).WF ∧
      Count Iterator.slice (⟨[(4 : Int), 5, 6], 1⟩ : SliceIterator Int) =
        some ((([(4 : Int), 5, 6].length : Int)) - 1,
          (⟨[(4 : Int), 5, 6], 1⟩ : SliceIterator Int).atEnd) :=
  ⟨by decide, ((Count_slice_exact (T := Int)).2 ⟨[4, 5, 6], 1⟩ (by decide)).1⟩

/-! ## `Collect` -/

theorem collectLoop_spec (i : Iterator S T) (fuel : Nat) :
    ∀ (s : SliceIterator S) (out : List T), s.WF → loopFuel s ≤ fuel →
      collectLoop i.Next fuel out s = some (out ++ i.elems s.remaining, s.atEnd) := by
  induction fuel with
  | zero =>
    intro s _ _ hf
    simp [loopFuel] at hf
  | succ fuel ih =>
    intro s out hs hf
    obtain ⟨hn, hc⟩ := i.next_spec s hs
    cases hel : i.elems s.remaining with
    | nil => simp [collectLoop, hn hel]
    | cons u us =>
      obtain ⟨s1, h1, hs1, hb, hlt, hrest⟩ := hc u us hel
      have hf1 : loopFuel s1 ≤ fuel := loopFuel_lt_of_idx_lt s s1 hb hlt hs1.2 hf
      have hend : s1.atEnd = s.atEnd := by simp [SliceIterator.atEnd, hb]
      simp only [collectLoop, h1, if_true]
      rw [ih s1 (out ++ [u]) hs1 hf1, hrest, hend]
      simp

theorem mapCollectLoop_spec (i : Iterator S T) (mapper : T → U) (fuel : Nat) :
    ∀ (s : SliceIterator S) (out : List U), s.WF → loopFuel s ≤ fuel →
      mapCollectLoop i.Next mapper fuel out s =
        some (out ++ (i.elems s.remaining).map mapper, s.atEnd) := by
  induction fuel with
  | zero =>
    intro s _ _ hf
    simp [loopFuel] at hf
  | succ fuel ih =>
    intro s out hs hf
    obtain ⟨hn, hc⟩ := i.next_spec s hs
    cases hel : i.elems s.remaining with
    | nil => simp [mapCollectLoop, hn hel]
    | cons u us =>
      obtain ⟨s1, h1, hs1, hb, hlt, hrest⟩ := hc u us hel
      have hf1 : loopFuel s1 ≤ fuel := loopFuel_lt_of_idx_lt s s1 hb hlt hs1.2 hf
      have hend : s1.atEnd = s.atEnd := by simp [SliceIterator.atEnd, hb]
      simp only [mapCollectLoop, h1, if_true]
      rw [ih s1 (out ++ [mapper u]) hs1 hf1, hrest, hend]
      simp

theorem SliceIterator.collect_spec (s : SliceIterator T) (hs : s.WF) :
    s.Collect = some (s.remaining, s) := by
  obtain ⟨h0, h1⟩ := hs
  have : ¬ (s.idx < 0 ∨ (s.base.length : Int) < s.idx) := by omega
  simp [SliceIterator.Collect, this, SliceIterator.remaining]

/-- `Collect` of a chain returns the elements still to come, in order. -/
theorem Iterator.collect_elems (i : Iterator S T) (s : SliceIterator S) (hs : s.WF) :
    ∃ s1, i.Collect s = some (i.elems s.remaining, s1) ∧ s1.WF ∧ s1.base = s.base := by
  cases i with
  | slice => exact ⟨s, by simpa [Iterator.Collect, Iterator.elems] using s.collect_spec hs, hs, rfl⟩
  | mapIter i mapper =>
    refine ⟨s.atEnd, ?_, s.wf_atEnd, rfl⟩
    simp [Iterator.Collect, Iterator.elems, mapCollectLoop_spec i mapper (loopFuel s) s [] hs]
  | filterIter i filter =>
    refine ⟨s.atEnd, ?_, s.wf_atEnd, rfl⟩
    simp [Iterator.Collect, collectLoop_spec (Iterator.filterIter i filter) (loopFuel s) s [] hs]

/-- On the slice source in a well-formed state, `n` calls of `Next` move the
cursor exactly as `Advance(n)` does and succeed as often as `Advance` reports. -/
theorem nextN_slice [Inhabited T] (n : Nat) :
    ∀ s : SliceIterator T, s.WF →
      nextN Iterator.slice.Next n s = some (s.Advance (n : Int)) := by
  induction n with
  | zero =>
    intro s hs
    obtain ⟨h0, h1⟩ := hs
    cases s with
    | mk base idx =>
      simp only [nextN, SliceIterator.Advance, GoIter.min, SliceIterator.EstimatedRemaining,
        Nat.cast_zero, Option.some.injEq, Prod.mk.injEq, SliceIterator.mk.injEq, true_and]
      simp only at h0 h1
      split_ifs <;> omega
  | succ n ih =>
    intro s hs
    have hl := s.length_remaining hs
    cases hr : s.remaining with
    | nil =>
      have hn := s.next_nil hs hr
      rw [← s.eq_atEnd_of_remaining_nil hs hr] at hn
      rw [hr] at hl
      simp only [List.length_nil] at hl
      have ih1 := ih s hs
      simp only [Iterator.Next] at ih1 ⊢
      simp only [nextN, hn, ih1]
      cases s with
      | mk base idx =>
        simp only [SliceIterator.Advance, GoIter.min, SliceIterator.EstimatedRemaining,
          Option.some.injEq, Prod.mk.injEq, SliceIterator.mk.injEq, true_and] at hl ⊢
        push_cast
        split_ifs <;> omega
    | cons t ts =>
      obtain ⟨hn, hs1, _⟩ := s.next_cons hs t ts hr
      rw [hr] at hl
      simp only [List.length_cons] at hl
      have ih1 := ih _ hs1
      simp only [Iterator.Next] at ih1 ⊢
      simp only [nextN, hn, ih1]
      cases s with
      | mk base idx =>
        simp only [SliceIterator.Advance, GoIter.min, SliceIterator.EstimatedRemaining,
          Option.some.injEq, Prod.mk.injEq, SliceIterator.mk.injEq, true_and, if_true] at hl ⊢
        push_cast at hl ⊢
        split_ifs <;> omega

/-- C4: after `c` calls of `Next` on `FromSlice xs` (all `c <= len` of them
succeed and leave the cursor at `c`), `Collect` returns `xs[c], ..., xs[len-1]` in
that order, which is also what pulling with `Next` to the end collects; from the
start `Collect` returns the whole of `xs`. -/
theorem Collect_slice_suffix [Inhabited T] (xs : List T) (c : Nat) (hc : c ≤ xs.length) :
    nextN Iterator.slice.Next c (FromSlice xs) = some ((c : Int), ⟨xs, (c : Int)⟩) ∧
      Iterator.slice.Collect ⟨xs, (c : Int)⟩ = some (xs.drop c, ⟨xs, (c : Int)⟩) ∧
      collectLoop Iterator.slice.Next (loopFuel ⟨xs, (c : Int)⟩) [] ⟨xs, (c : Int)⟩ =
        some (xs.drop c, ⟨xs, (xs.length : Int)⟩) ∧
      Iterator.slice.Collect (FromSlice xs) = some (xs, FromSlice xs) := by
  have hwf : (⟨xs, (c : Int)⟩ : SliceIterator T).WF := ⟨by simp, by simpa using hc⟩
  refine ⟨?_, ?_, ?_, ?_⟩
  · rw [nextN_slice c _ (SliceIterator.wf_fromSlice xs)]
    simp only [SliceIterator.Advance, GoIter.min, SliceIterator.EstimatedRemaining, FromSlice,
      sub_zero, zero_add, Option.some.injEq, Prod.mk.injEq, SliceIterator.mk.injEq, true_and]
    split_ifs <;> omega
  · have := SliceIterator.collect_spec _ hwf
    simpa [Iterator.Collect, SliceIterator.remaining] using this
  · have := collectLoop_spec Iterator.slice _ _ [] hwf (le_refl _)
    simpa [Iterator.elems, SliceIterator.remaining, SliceIterator.atEnd] using this
  · have := SliceIterator.collect_spec _ (SliceIterator.wf_fromSlice xs)
    simpa [Iterator.Collect, SliceIterator.remaining_fromSlice] using this

theorem Collect_slice_suffix_witness :
    2 ≤ [(5 : Int), 6, 7, 8].length ∧
      Iterator.slice.Collect (⟨[(5 : Int), 6, 7, 8], ((2 : Nat) : Int)⟩ : SliceIterator Int) =
        some ([(5 : Int), 6, 7, 8].drop 2, ⟨[(5 : Int), 6, 7, 8], ((2 : Nat) : Int)⟩) :=
  ⟨by decide, (Collect_slice_suffix [(5 : Int), 6, 7, 8] 2 (by decide)).2.1⟩

/-- C5, evaluated on `FromSlice [1, 2, 3]`: `Collect` on the slice source returns
the three elements and leaves the cursor at 0, so afterwards `EstimatedRemaining`
is 3, `Next` returns `(1, true)` and a second `Collect` returns the same three
elements; the same slice collected through `Map` with the identity is left with
the cursor at the end. -/
theorem Collect_slice_keeps_cursor :
    Iterator.slice.Collect (FromSlice [(1 : Int), 2, 3]) =
        some ([1, 2, 3], FromSlice [(1 : Int), 2, 3]) ∧
      (FromSlice [(1 : Int), 2, 3]).EstimatedRemaining = 3 ∧
      Iterator.slice.Next (FromSlice [(1 : Int), 2, 3]) = some ((1, true), ⟨[1, 2, 3], 1⟩) ∧
      (Map Iterator.slice (fun (x : Int) => x)).Collect (FromSlice [(1 : Int), 2, 3]) =
        some ([1, 2, 3], ⟨[1, 2, 3], 3⟩) := by
  decide

/-! ## `EstimatedRemaining` and `Advance` of a chain -/

theorem Iterator.estimatedRemaining_le (i : Iterator S T) (s : SliceIterator S) (hs : s.WF) :
    i.EstimatedRemaining s ≤ ((i.elems s.remaining).length : Int) := by
  induction i with
  | slice => simp [Iterator.EstimatedRemaining, Iterator.elems, s.length_remaining hs]
  | mapIter i mapper ih => simpa [Iterator.EstimatedRemaining, Iterator.elems] using ih
  | filterIter i filter _ => simp [Iterator.EstimatedRemaining]

theorem SliceIterator.advance_slice_spec (s : SliceIterator T) (hs : s.WF) (n : Int) (hn : 0 ≤ n) :
    (s.Advance n).1 = Min.min n (s.remaining.length : Int) ∧ (s.Advance n).2.WF ∧
      (s.Advance n).2.base = s.base ∧ (s.Advance n).2.remaining = s.remaining.drop n.toNat := by
  have hl := s.length_remaining hs
  obtain ⟨h0, h1⟩ := hs
  have hadv : GoIter.min n s.EstimatedRemaining = Min.min n (s.remaining.length : Int) := by
    rw [hl]
    simp only [GoIter.min]
    split_ifs <;> omega
  simp only [SliceIterator.EstimatedRemaining] at hl
  refine ⟨hadv, ?_, rfl, ?_⟩
  · simp only [SliceIterator.Advance, hadv, SliceIterator.WF]
    omega
  · have hlen : (s.remaining.length : Int) = (s.base.length : Int) - s.idx := hl
    simp only [SliceIterator.Advance, hadv]
    by_cases hc : n ≤ (s.remaining.length : Int)
    · rw [min_eq_left hc]
      have hk : (s.idx + n).toNat = s.idx.toNat + n.toNat := by omega
      simp only [SliceIterator.remaining, hk, List.drop_drop]
    · rw [min_eq_right (by omega)]
      have hk : (s.idx + (s.remaining.length : Int)).toNat = s.base.length := by omega
      have hlen2 : s.remaining.length ≤ n.toNat := by omega
      rw [List.drop_eq_nil_of_le hlen2]
      exact List.drop_eq_nil_of_le (le_of_eq hk.symm)

/-- The loop of `filterIter.Advance` over a chain `j`: it stops after `n - c`
further elements, or earlier when the elements run out. -/
theorem filterAdvanceLoop_spec (j : Iterator S T) (n : Int) (fuel : Nat) :
    ∀ (c : Int) (s : SliceIterator S), s.WF → (n - c).toNat ≤ fuel →
      ∃ s1, filterAdvanceLoop j.Next n fuel c s =
          some (Min.min n (c + ((j.elems s.remaining).length : Int)), s1) ∧
        s1.WF ∧ s1.base = s.base ∧
        j.elems s1.remaining = (j.elems s.remaining).drop (n - c).toNat := by
  induction fuel with
  | zero =>
    intro c s hs hf
    have hcn : ¬ c < n := by omega
    refine ⟨s, ?_, hs, rfl, ?_⟩
    · simp only [filterAdvanceLoop, if_neg hcn, Option.some.injEq, Prod.mk.injEq, and_true]
      omega
    · have : (n - c).toNat = 0 := by omega
      simp [this]
  | succ fuel ih =>
    intro c s hs hf
    by_cases hcn : c < n
    · obtain ⟨hnil, hcons⟩ := j.next_spec s hs
      cases hel : j.elems s.remaining with
      | nil =>
        refine ⟨s.atEnd, ?_, s.wf_atEnd, rfl, ?_⟩
        · simp only [filterAdvanceLoop, if_pos hcn, hnil hel, Bool.not_false, if_true,
            List.length_nil, Option.some.injEq, Prod.mk.injEq, and_true]
          push_cast
          omega
        · simp [s.remaining_atEnd, j.elems_nil]
      | cons u us =>
        obtain ⟨s1, h1, hs1, hb, _, hrest⟩ := hcons u us hel
        obtain ⟨s2, h2, hs2, hb2, hr2⟩ := ih (c + 1) s1 hs1 (by omega)
        refine ⟨s2, ?_, hs2, hb2.trans hb, ?_⟩
        · simp only [filterAdvanceLoop, if_pos hcn, h1, Bool.not_true, h2, hrest,
            List.length_cons, Option.some.injEq, Prod.mk.injEq, and_true]
          simp only [Bool.false_eq_true, if_false, Option.some.injEq, Prod.mk.injEq, and_true]
          push_cast
          omega
        · have hk : (n - c).toNat = (n - (c + 1)).toNat + 1 := by omega
          rw [hr2, hrest, hk, List.drop_succ_cons]
    · refine ⟨s, ?_, hs, rfl, ?_⟩
      · simp only [filterAdvanceLoop, if_neg hcn, Option.some.injEq, Prod.mk.injEq, and_true]
        omega
      · have : (n - c).toNat = 0 := by omega
        simp [this]

/-- `Advance(n)` of a chain, `n >= 0`, in a well-formed state: it skips the first
`n` of the elements still to come, or all of them when there are fewer, and
returns how many it skipped. -/
theorem Iterator.advance_spec (i : Iterator S T) (n : Int) (hn : 0 ≤ n) :
    ∀ s : SliceIterator S, s.WF →
      ∃ s1, i.Advance n s = some (Min.min n ((i.elems s.remaining).length : Int), s1) ∧
        s1.WF ∧ s1.base = s.base ∧
        i.elems s1.remaining = (i.elems s.remaining).drop n.toNat := by
  induction i with
  | slice =>
    intro s hs
    obtain ⟨h1, h2, h3, h4⟩ := s.advance_slice_spec hs n hn
    refine ⟨(s.Advance n).2, ?_, h2, h3, by simpa [Iterator.elems] using h4⟩
    simp only [Iterator.Advance, Iterator.elems, ← h1]
  | mapIter i mapper ih =>
    intro s hs
    obtain ⟨s1, h1, hs1, hb, hr⟩ := ih s hs
    refine ⟨s1, ?_, hs1, hb, ?_⟩
    · simp [Iterator.Advance, Iterator.elems, h1]
    · simp [Iterator.elems, hr]
  | filterIter i filter _ =>
    intro s hs
    obtain ⟨s1, h1, hs1, hb, hr⟩ :=
      filterAdvanceLoop_spec (Iterator.filterIter i filter) n n.toNat 0 s hs (by simp)
    refine ⟨s1, ?_, hs1, hb, by simpa using hr⟩
    simpa [Iterator.Advance] using h1

/-- Every reachable state has its cursor in the backing range. -/
theorem Reachable.wf {i : Iterator S T} {xs : List S} {s : SliceIterator S}
    (h : Reachable i xs s) : s.WF ∧ s.base = xs := by
  induction h with
  | start => exact ⟨SliceIterator.wf_fromSlice xs, rfl⟩
  | @next s s1 r _ hn ih =>
    obtain ⟨hnil, hcons⟩ := i.next_spec s ih.1
    cases hel : i.elems s.remaining with
    | nil =>
      rw [hnil hel] at hn
      simp only [Option.some.injEq, Prod.mk.injEq] at hn
      rw [← hn.2]
      exact ⟨s.wf_atEnd, ih.2⟩
    | cons u us =>
      obtain ⟨s2, h2, hs2, hb, _, _⟩ := hcons u us hel
      rw [h2] at hn
      simp only [Option.some.injEq, Prod.mk.injEq] at hn
      rw [← hn.2]
      exact ⟨hs2, hb.trans ih.2⟩
  | @advance s s1 n k _ hn ha ih =>
    obtain ⟨s2, h2, hs2, hb, _⟩ := i.advance_spec n hn s ih.1
    rw [h2] at ha
    simp only [Option.some.injEq, Prod.mk.injEq] at ha
    rw [← ha.2]
    exact ⟨hs2, hb.trans ih.2⟩

/-- C6: for every chain of `Map` and `Filter` over a slice source whose cursor
lies in the backing range (every state reachable through `Next` and
`Advance(n)`, `n >= 0`), `Count` returns a number that `EstimatedRemaining` does
not exceed; the estimate is exactly `len - idx` for the slice source, which is
also its count, is forwarded unchanged by `Map`, and is 0 for `Filter`. -/
theorem EstimatedRemaining_lower_bound (i : Iterator S T) (s : SliceIterator S) (h : s.WF) :
    (∃ c s1, Count i s = some (c, s1) ∧ i.EstimatedRemaining s ≤ c) ∧
      (∀ inst : Inhabited S,
        (@Iterator.slice S inst).EstimatedRemaining s = (s.base.length : Int) - s.idx ∧
          ∃ s1, Count (@Iterator.slice S inst) s = some ((s.base.length : Int) - s.idx, s1)) ∧
      (∀ (V : Type) (inst : Inhabited V) (mapper : T → V),
        (@Map S T V inst i mapper).EstimatedRemaining s = i.EstimatedRemaining s) ∧
      (∀ filter : T → Bool, (Filter i filter).EstimatedRemaining s = 0) := by
  refine ⟨⟨_, _, Count_spec i s h, i.estimatedRemaining_le s h⟩, fun inst => ⟨rfl, ?_⟩,
    fun V inst mapper => rfl, fun filter => rfl⟩
  refine ⟨s.atEnd, ?_⟩
  rw [Count_spec _ s h]
  simp only [Iterator.elems, s.length_remaining h, SliceIterator.EstimatedRemaining]

theorem EstimatedRemaining_lower_bound_witness :
    (⟨[(1 : Int), 2, 3, 4], 1⟩ : SliceIterator Int).WF ∧
      ∃ c s1,
        Count (Map (Filter Iterator.slice (fun (x : Int) => decide (2 < x))) (fun x => x + 1))
            ⟨[(1 : Int), 2, 3, 4], 1⟩ = some (c, s1) ∧
          (Map (Filter Iterator.slice (fun (x : Int) => decide (2 < x)))
            (fun x => x + 1)).EstimatedRemaining ⟨[(1 : Int), 2, 3, 4], 1⟩ ≤ c :=
  ⟨by decide, (EstimatedRemaining_lower_bound
    (Map (Filter Iterator.slice (fun (x : Int) => decide (2 < x))) (fun x => x + 1))
    ⟨[(1 : Int), 2, 3, 4], 1⟩ (by decide)).1⟩

/-! ## `Last` -/

theorem lastLoop_spec (i : Iterator S T) (fuel : Nat) :
    ∀ (s : SliceIterator S) (lastOk : T) (atLeastOne : Bool), s.WF → loopFuel s ≤ fuel →
      lastLoop i.Next fuel lastOk atLeastOne s =
        some (((i.elems s.remaining).getLast?.getD lastOk,
          atLeastOne || !(i.elems s.remaining).isEmpty), s.atEnd) := by
  induction fuel with
  | zero =>
    intro s _ _ _ hf
    simp [loopFuel] at hf
  | succ fuel ih =>
    intro s lastOk atLeastOne hs hf
    obtain ⟨hn, hc⟩ := i.next_spec s hs
    cases hel : i.elems s.remaining with
    | nil => simp [lastLoop, hn hel]
    | cons u us =>
      obtain ⟨s1, h1, hs1, hb, hlt, hrest⟩ := hc u us hel
      have hf1 : loopFuel s1 ≤ fuel := loopFuel_lt_of_idx_lt s s1 hb hlt hs1.2 hf
      have hend : s1.atEnd = s.atEnd := by simp [SliceIterator.atEnd, hb]
      simp only [lastLoop, h1, if_true]
      rw [ih s1 u true hs1 hf1, hrest, hend, List.getLast?_cons]
      simp

theorem naiveLast_spec [Inhabited T] (i : Iterator S T) (s : SliceIterator S) (hs : s.WF) :
    naiveLast i s =
      some (((i.elems s.remaining).getLast?.getD default, !(i.elems s.remaining).isEmpty),
        s.atEnd) := by
  simp [naiveLast, lastLoop_spec i (loopFuel s) s default false hs]

theorem Last_spec [Inhabited T] (i : Iterator S T) (s : SliceIterator S) (hs : s.WF) :
    Last i s =
      some (((i.elems s.remaining).getLast?.getD default, !(i.elems s.remaining).isEmpty),
        s.atEnd) := by
  by_cases hgt : i.EstimatedRemaining s > 1
  · have hle := i.estimatedRemaining_le s hs
    obtain ⟨s1, h1, hs1, hb, hr⟩ :=
      i.advance_spec (i.EstimatedRemaining s - 1) (by omega) s hs
    have hend : s1.atEnd = s.atEnd := by simp [SliceIterator.atEnd, hb]
    have hlen : ¬ (i.elems s.remaining).length ≤ (i.EstimatedRemaining s - 1).toNat := by omega
    have hne : (i.elems s.remaining) ≠ [] := by
      intro h0
      rw [h0] at hlen
      simp at hlen
    have hne1 : (i.elems s.remaining).drop (i.EstimatedRemaining s - 1).toNat ≠ [] := by
      intro h0
      rw [List.drop_eq_nil_iff] at h0
      exact hlen h0
    have e1 : ((i.elems s.remaining).drop (i.EstimatedRemaining s - 1).toNat).isEmpty
        = false := by
      cases hd : (i.elems s.remaining).drop (i.EstimatedRemaining s - 1).toNat with
      | nil => exact absurd hd hne1
      | cons _ _ => rfl
    have e2 : (i.elems s.remaining).isEmpty = false := by
      cases hd : i.elems s.remaining with
      | nil => exact absurd hd hne
      | cons _ _ => rfl
    simp only [Last, if_pos hgt, h1]
    rw [lastLoop_spec i (loopFuel s1) s1 default false hs1 (le_refl _), hr, hend,
      List.getLast?_drop, if_neg hlen, e1, e2]
    rfl
  · simp only [Last, if_neg hgt]
    exact naiveLast_spec i s hs

/-- C7: for every chain of `Map` and `Filter` over a slice source whose cursor
lies in the backing range, `Last` returns what the naive linear scan returns and
leaves the same state; with `l` the sequence that pulling with `Next` to the end
yields, the result is the last element of `l` and true when `l` is not empty, and
the zero value and false when it is; a second `Last` returns the zero value and
false. -/
theorem Last_eq_naive_scan [Inhabited T] (i : Iterator S T) (s : SliceIterator S) (h : s.WF) :
    Last i s = naiveLast i s ∧
      ∃ l, collectLoop i.Next (loopFuel s) [] s = some (l, s.atEnd) ∧
        (∀ hne : l ≠ [], Last i s = some ((l.getLast hne, true), s.atEnd)) ∧
        (l = [] → Last i s = some ((default, false), s.atEnd)) ∧
        Last i s.atEnd = some ((default, false), s.atEnd) := by
  refine ⟨by rw [Last_spec i s h, naiveLast_spec i s h], i.elems s.remaining, ?_, ?_, ?_, ?_⟩
  · simpa using collectLoop_spec i (loopFuel s) s [] h (le_refl _)
  · intro hne
    rw [Last_spec i s h, List.getLast?_eq_getLast _ hne]
    simp [hne]
  · intro hnil
    rw [Last_spec i s h, hnil]
    simp
  · rw [Last_spec i s.atEnd s.wf_atEnd, s.remaining_atEnd, i.elems_nil]
    simp [SliceIterator.atEnd]

theorem Last_eq_naive_scan_witness :
    (FromSlice [(3 : Int), 1, 4, 1, 5]).WF ∧
      Last (Map Iterator.slice (fun (x : Int) => x * 2)) (FromSlice [(3 : Int), 1, 4, 1, 5]) =
        naiveLast (Map Iterator.slice (fun (x : Int) => x * 2))
          (FromSlice [(3 : Int), 1, 4, 1, 5]) :=
  ⟨by decide, (Last_eq_naive_scan (Map Iterator.slice (fun (x : Int) => x * 2))
    (FromSlice [(3 : Int), 1, 4, 1, 5]) (by decide)).1⟩

/-! ## `Advance` against repeated `Next` -/

theorem nextN_congr {V : Type} (next1 : SliceIterator S → Result S (T × Bool))
    (next3 : SliceIterator S → Result S (V × Bool))
    (h : ∀ s, (next3 s).map (fun r => (r.1.2, r.2)) = (next1 s).map (fun r => (r.1.2, r.2)))
    (n : Nat) :
    ∀ s, nextN next3 n s = nextN next1 n s := by
  induction n with
  | zero => intro s; rfl
  | succ n ih =>
    intro s
    have hs := h s
    cases h3 : next3 s with
    | none =>
      rw [h3] at hs
      cases h1 : next1 s with
      | none => simp [nextN, h3, h1]
      | some r => rw [h1] at hs; simp at hs
    | some r3 =>
      rw [h3] at hs
      cases h1 : next1 s with
      | none => rw [h1] at hs; simp at hs
      | some r1 =>
        rw [h1] at hs
        simp only [Option.map_some', Option.some.injEq, Prod.mk.injEq] at hs
        obtain ⟨⟨v3, ok3⟩, s3⟩ := r3
        obtain ⟨⟨v1, ok1⟩, s1⟩ := r1
        simp only at hs
        obtain ⟨rfl, rfl⟩ := hs
        simp [nextN, h3, h1, ih]

theorem SliceIterator.atEnd_atEnd (s : SliceIterator S) : s.atEnd.atEnd = s.atEnd := rfl

/-- Once the cursor is at the end, further `Next` calls all fail and change nothing. -/
theorem nextN_atEnd (j : Iterator S T) (n : Nat) (s : SliceIterator S) :
    nextN j.Next n s.atEnd = some (0, s.atEnd) := by
  induction n with
  | zero => rfl
  | succ n ih =>
    obtain ⟨hnil, _⟩ := j.next_spec s.atEnd s.wf_atEnd
    have h1 := hnil (by rw [s.remaining_atEnd, j.elems_nil])
    rw [s.atEnd_atEnd] at h1
    simp [nextN, h1, ih]

/-- The loop of `filterIter.Advance` with `fuel` rounds to go agrees with `fuel`
calls of `Next`. -/
theorem filterAdvanceLoop_eq_nextN (j : Iterator S T) (fuel : Nat) :
    ∀ (c : Int) (s : SliceIterator S), s.WF →
      filterAdvanceLoop j.Next (c + (fuel : Int)) fuel c s =
        (nextN j.Next fuel s).map (fun r => (c + r.1, r.2)) := by
  induction fuel with
  | zero =>
    intro c s _
    simp [filterAdvanceLoop, nextN]
  | succ fuel ih =>
    intro c s hs
    have hcn : c < c + ((fuel + 1 : Nat) : Int) := by
      push_cast
      omega
    obtain ⟨hnil, hcons⟩ := j.next_spec s hs
    cases hel : j.elems s.remaining with
    | nil =>
      simp [filterAdvanceLoop, hcn, nextN, hnil hel, nextN_atEnd]
    | cons u us =>
      obtain ⟨s1, h1, hs1, _, _, _⟩ := hcons u us hel
      have hk : c + ((fuel + 1 : Nat) : Int) = (c + 1) + (fuel : Int) := by
        push_cast
        ring
      have ih1 := ih (c + 1) s1 hs1
      rw [← hk] at ih1
      simp only [filterAdvanceLoop, if_pos hcn, h1, Bool.not_true, nextN, ih1]
      cases nextN j.Next fuel s1 with
      | none => simp
      | some r =>
        simp only [Bool.false_eq_true, if_false, Option.map_some', if_true,
          Option.some.injEq, Prod.mk.injEq, and_true]
        ring

/-- In a well-formed state `Advance(n)` of a chain is `n` calls of its `Next`. -/
theorem Iterator.advance_eq_nextN (i : Iterator S T) (n : Nat) :
    ∀ s : SliceIterator S, s.WF → i.Advance (n : Int) s = nextN i.Next n s := by
  induction i with
  | slice =>
    intro s hs
    rw [nextN_slice n s hs]
    rfl
  | mapIter i mapper ih =>
    intro s hs
    have hc := nextN_congr i.Next (Iterator.mapIter i mapper).Next (fun r => by
      simp only [Iterator.Next]
      cases i.Next r with
      | none => rfl
      | some v =>
        obtain ⟨⟨item, ok⟩, s1⟩ := v
        cases ok <;> simp) n s
    rw [hc]
    exact ih s hs
  | filterIter i filter _ =>
    intro s hs
    have h := filterAdvanceLoop_eq_nextN (Iterator.filterIter i filter) n 0 s hs
    simp only [zero_add] at h
    simp only [Iterator.Advance, Int.toNat_ofNat, h]
    cases nextN (Iterator.filterIter i filter).Next n s with
    | none => rfl
    | some r => rfl

/-- C8: for every chain of `Map` and `Filter` over a slice source whose cursor
lies in the backing range and every `n >= 0`, `Advance(n)` returns, and its
result and the state it leaves are those of calling `Next` `n` times and
discarding the elements: the same root state, and as return value the number of
those calls that returned true. -/
theorem Advance_eq_repeated_Next (i : Iterator S T) (s : SliceIterator S) (h : s.WF)
    (n : Int) (hn : 0 ≤ n) :
    i.Advance n s = nextN i.Next n.toNat s ∧ ∃ k s1, i.Advance n s = some (k, s1) := by
  obtain ⟨s1, h1, _⟩ := i.advance_spec n hn s h
  refine ⟨?_, _, s1, h1⟩
  have := i.advance_eq_nextN n.toNat s h
  rwa [Int.toNat_of_nonneg hn] at this

theorem Advance_eq_repeated_Next_witness :
    (FromSlice [(0 : Int), 1, 2, 3, 4, 5]).WF ∧ (0 : Int) ≤ 2 ∧
      (Filter Iterator.slice (fun (x : Int) => decide (2 < x))).Advance 2
          (FromSlice [(0 : Int), 1, 2, 3, 4, 5]) =
        nextN (Filter Iterator.slice (fun (x : Int) => decide (2 < x))).Next (2 : Int).toNat
          (FromSlice [(0 : Int), 1, 2, 3, 4, 5]) :=
  ⟨by decide, by decide,
    (Advance_eq_repeated_Next (Filter Iterator.slice (fun (x : Int) => decide (2 < x)))
      (FromSlice [(0 : Int), 1, 2, 3, 4, 5]) (by decide) 2 (by decide)).1⟩

/-- C9: on a slice-backed iterator whose cursor lies in the backing range, with
`r` elements remaining, `Advance(n)` for `n >= 0` moves the cursor by `min(n, r)`
and returns that number; it is at most `n`, and less than `n` exactly when
`r < n`; when `n > r` the iterator is left exhausted: `Count` afterwards is 0 and
`Next` returns the zero value and false. -/
theorem Advance_slice_min [Inhabited T] (s : SliceIterator T) (h : s.WF) (n : Int)
    (hn : 0 ≤ n) :
    ∃ s1, Iterator.slice.Advance n s = some (Min.min n s.EstimatedRemaining, s1) ∧
      s1.base = s.base ∧ s1.idx = s.idx + Min.min n s.EstimatedRemaining ∧
      s.EstimatedRemaining = (s.remaining.length : Int) ∧
      Min.min n s.EstimatedRemaining ≤ n ∧
      (Min.min n s.EstimatedRemaining < n ↔ s.EstimatedRemaining < n) ∧
      (s.EstimatedRemaining < n →
        s1 = s.atEnd ∧ Count Iterator.slice s1 = some (0, s1) ∧
          Iterator.slice.Next s1 = some ((default, false), s1)) := by
  have hl := s.length_remaining h
  obtain ⟨h1, _, h3, _⟩ := s.advance_slice_spec h n hn
  rw [hl] at h1
  refine ⟨(s.Advance n).2, ?_, h3, ?_, hl.symm, min_le_left _ _, ?_, ?_⟩
  · simp only [Iterator.Advance, ← h1]
  · rw [← h1]
    rfl
  · constructor
    · intro hlt
      by_contra hc
      rw [min_eq_left (by omega)] at hlt
      exact lt_irrefl _ hlt
    · intro hlt
      rw [min_eq_right (le_of_lt hlt)]
      exact hlt
  · intro hlt
    have hend : (s.Advance n).2 = s.atEnd := by
      have hidx : (s.Advance n).2.idx = s.idx + (s.Advance n).1 := rfl
      rw [h1, min_eq_right (le_of_lt hlt)] at hidx
      cases s with
      | mk base idx =>
        simp only [SliceIterator.EstimatedRemaining] at hidx
        simp only [SliceIterator.atEnd, SliceIterator.Advance, SliceIterator.mk.injEq, true_and]
        simp only [SliceIterator.Advance] at hidx
        omega
    rw [hend]
    refine ⟨rfl, ?_, ?_⟩
    · rw [Count_spec Iterator.slice s.atEnd s.wf_atEnd, s.remaining_atEnd]
      simp [Iterator.elems, SliceIterator.atEnd]
    · have := s.atEnd.next_nil s.wf_atEnd s.remaining_atEnd
      simpa [Iterator.Next, SliceIterator.atEnd] using this

theorem Advance_slice_min_witness :
    (FromSlice ["a", "b", "c"]).WF ∧ (0 : Int) ≤ 20 ∧
      ∃ s1, Iterator.slice.Advance 20 (FromSlice ["a", "b", "c"]) =
          some (Min.min 20 (FromSlice ["a", "b", "c"]).EstimatedRemaining, s1) ∧
        ((FromSlice ["a", "b", "c"]).EstimatedRemaining < 20 →
          s1 = (FromSlice ["a", "b", "c"]).atEnd ∧ Count Iterator.slice s1 = some (0, s1) ∧
            Iterator.slice.Next s1 = some (("", false), s1)) := by
  obtain ⟨s1, h1, _, _, _, _, _, h7⟩ :=
    Advance_slice_min (FromSlice ["a", "b", "c"]) (by decide) 20 (by decide)
  exact ⟨by decide, by decide, s1, h1, h7⟩

/-! ## `Filter` -/

theorem Sum_spec [AddMonoid T] (i : Iterator S T) (s : SliceIterator S) (hs : s.WF) :
    Sum i s = some ((i.elems s.remaining).sum, s.atEnd) := by
  rw [Sum, Fold_spec i s hs, List.sum_eq_foldl]

theorem Filter_collect_spec [Inhabited T] (xs : List T) (p : T → Bool) :
    (Filter Iterator.slice p).Collect (FromSlice xs) =
      some (xs.filter p, (FromSlice xs).atEnd) := by
  have h := collectLoop_spec (Iterator.filterIter Iterator.slice p)
    (loopFuel (FromSlice xs)) (FromSlice xs) [] (SliceIterator.wf_fromSlice xs) (le_refl _)
  simpa [Filter, Iterator.Collect, Iterator.elems, SliceIterator.remaining_fromSlice] using h

theorem Filter_sum_spec [Inhabited T] [AddMonoid T] (xs : List T) (p : T → Bool) :
    Sum (Filter Iterator.slice p) (FromSlice xs) =
      some ((xs.filter p).sum, (FromSlice xs).atEnd) := by
  rw [Sum_spec _ _ (SliceIterator.wf_fromSlice xs)]
  simp [Filter, Iterator.elems, SliceIterator.remaining_fromSlice]

/-- C10: `Collect` on `Filter(FromSlice(xs), p)` is the subsequence of `xs` on
which `p` is true, in the original order, so its length is the number of
satisfying elements, and `Sum` over the same filter is the sum of the satisfying
elements; for every permutation of `0..9` with the is-even predicate the
collected length is 5 and the sum is 20. -/
theorem Filter_collect_subsequence [Inhabited T] [AddMonoid T] (xs : List T) (p : T → Bool) :
    (Filter Iterator.slice p).Collect (FromSlice xs) =
        some (xs.filter p, (FromSlice xs).atEnd) ∧
      (xs.filter p).length = xs.countP p ∧
      Sum (Filter Iterator.slice p) (FromSlice xs) =
        some ((xs.filter p).sum, (FromSlice xs).atEnd) ∧
      (∀ ys : List Int, ys.Perm sampleInts →
        (∃ l, (Filter Iterator.slice isEven).Collect (FromSlice ys) =
            some (l, (FromSlice ys).atEnd) ∧ l.length = 5) ∧
          Sum (Filter Iterator.slice isEven) (FromSlice ys) =
            some (20, (FromSlice ys).atEnd)) := by
  refine ⟨Filter_collect_spec xs p, (List.countP_eq_length_filter p xs).symm,
    Filter_sum_spec xs p, fun ys hp => ⟨⟨_, Filter_collect_spec ys isEven, ?_⟩, ?_⟩⟩
  · rw [(hp.filter isEven).length_eq]
    decide
  · have h20 : (sampleInts.filter isEven).sum = 20 := by decide
    rw [Filter_sum_spec ys isEven, (hp.filter isEven).sum_eq, h20]

theorem Filter_collect_subsequence_witness :
    [(9 : Int), 8, 7, 6, 5, 4, 3, 2, 1, 0].Perm sampleInts ∧
      Sum (Filter Iterator.slice isEven) (FromSlice [(9 : Int), 8, 7, 6, 5, 4, 3, 2, 1, 0]) =
        some (20, (FromSlice [(9 : Int), 8, 7, 6, 5, 4, 3, 2, 1, 0]).atEnd) :=
  ⟨by decide, ((Filter_collect_subsequence ([] : List Int) (fun _ => true)).2.2.2
    [9, 8, 7, 6, 5, 4, 3, 2, 1, 0] (by decide)).2⟩

/-! ## `Map` and `Sum` -/

theorem Map_collect_spec [Inhabited T] [Inhabited U] (xs : List T) (f : T → U) :
    (Map Iterator.slice f).Collect (FromSlice xs) = some (xs.map f, (FromSlice xs).atEnd) := by
  have h := mapCollectLoop_spec (Iterator.slice : Iterator T T) f
    (loopFuel (FromSlice xs)) (FromSlice xs) [] (SliceIterator.wf_fromSlice xs) (le_refl _)
  simpa [Map, Iterator.Collect, Iterator.elems, SliceIterator.remaining_fromSlice] using h

theorem Map_sum_spec [Inhabited T] [Inhabited U] [AddMonoid U] (xs : List T) (f : T → U) :
    Sum (Map Iterator.slice f) (FromSlice xs) =
      some ((xs.map f).sum, (FromSlice xs).atEnd) := by
  rw [Sum_spec _ _ (SliceIterator.wf_fromSlice xs)]
  simp [Map, Iterator.elems, SliceIterator.remaining_fromSlice]

theorem Sum_slice_spec [Inhabited T] [AddMonoid T] (xs : List T) :
    Sum Iterator.slice (FromSlice xs) = some (xs.sum, (FromSlice xs).atEnd) := by
  rw [Sum_spec _ _ (SliceIterator.wf_fromSlice xs)]
  simp [Iterator.elems, SliceIterator.remaining_fromSlice]

theorem sum_map_double (ys : List Int) : (ys.map double).sum = 2 * ys.sum := by
  induction ys with
  | nil => simp
  | cons y ys ih =>
    simp only [List.map_cons, List.sum_cons, ih, double]
    ring

theorem wrap64_add_left (a x : Int) : wrap64 (wrap64 a + x) = wrap64 (a + x) := by
  simp only [wrap64]
  norm_num
  omega

theorem foldl_wrap64 (l : List Int) :
    ∀ a : Int, List.foldl (fun a b => wrap64 (a + b)) (wrap64 a) l = wrap64 (a + l.sum) := by
  induction l with
  | nil => intro a; simp
  | cons x xs ih =>
    intro a
    simp only [List.foldl_cons, List.sum_cons, wrap64_add_left, ih]
    congr 1
    ring

theorem SumInt64_slice_spec (xs : List Int) :
    SumInt64 Iterator.slice (FromSlice xs) = some (wrap64 xs.sum, (FromSlice xs).atEnd) := by
  have h0 : (0 : Int) = wrap64 0 := by decide
  rw [SumInt64, Fold_spec _ _ (SliceIterator.wf_fromSlice xs)]
  simp only [Iterator.elems, SliceIterator.remaining_fromSlice]
  rw [h0, foldl_wrap64, zero_add]

theorem SumInt64_spec (i : Iterator S Int) (s : SliceIterator S) (hs : s.WF) :
    SumInt64 i s = some (wrap64 (i.elems s.remaining).sum, s.atEnd) := by
  have h0 : (0 : Int) = wrap64 0 := by decide
  rw [SumInt64, Fold_spec _ _ hs, h0, foldl_wrap64, zero_add]

theorem wrap64_add_right (a x : Int) : wrap64 (a + wrap64 x) = wrap64 (a + x) := by
  rw [add_comm, wrap64_add_left, add_comm]

theorem wrap64_two_mul (a : Int) : wrap64 (2 * wrap64 a) = wrap64 (2 * a) := by
  simp only [wrap64]
  norm_num
  omega

theorem wrap64_sum_map_double64 (l : List Int) :
    ∀ a : Int, wrap64 (a + (l.map double64).sum) = wrap64 (a + 2 * l.sum) := by
  induction l with
  | nil => intro a; simp
  | cons x xs ih =>
    intro a
    have e1 : a + ((x :: xs).map double64).sum = (a + (xs.map double64).sum) + wrap64 (x * 2) := by
      simp only [List.map_cons, List.sum_cons, double64]
      ring
    have e2 : a + (xs.map double64).sum + x * 2 = (a + x * 2) + (xs.map double64).sum := by
      ring
    have e3 : a + 2 * (x :: xs).sum = (a + x * 2) + 2 * xs.sum := by
      simp only [List.sum_cons]
      ring
    rw [e1, wrap64_add_right, e2, ih, e3]

/-- C11: `Collect` on `Map(FromSlice(xs), f)` is `[f(xs[0]), ..., f(xs[len-1])]`,
as long as `xs`, and `Sum` over the same `Map` is the sum of `f(x)` over `xs`;
with `f` the doubling function the sum is twice `Sum(FromSlice(xs))`, also when
`+` and `*` are those of a 64-bit `int` and wrap around, and it is 90 for every
permutation of `0..9`. -/
theorem Map_collect_pointwise [Inhabited T] [Inhabited U] [AddMonoid U] (xs : List T)
    (f : T → U) :
    (Map Iterator.slice f).Collect (FromSlice xs) =
        some (xs.map f, (FromSlice xs).atEnd) ∧
      (xs.map f).length = xs.length ∧
      Sum (Map Iterator.slice f) (FromSlice xs) =
        some ((xs.map f).sum, (FromSlice xs).atEnd) ∧
      (∀ ys : List Int, ∃ v,
        Sum Iterator.slice (FromSlice ys) = some (v, (FromSlice ys).atEnd) ∧
          Sum (Map Iterator.slice double) (FromSlice ys) =
            some (2 * v, (FromSlice ys).atEnd)) ∧
      (∀ ys : List Int, ∃ v,
        SumInt64 Iterator.slice (FromSlice ys) = some (v, (FromSlice ys).atEnd) ∧
          SumInt64 (Map Iterator.slice double64) (FromSlice ys) =
            some (wrap64 (2 * v), (FromSlice ys).atEnd)) ∧
      (∀ ys : List Int, ys.Perm sampleInts →
        Sum (Map Iterator.slice double) (FromSlice ys) = some (90, (FromSlice ys).atEnd)) := by
  refine ⟨Map_collect_spec xs f, List.length_map xs f, Map_sum_spec xs f, fun ys => ?_,
    fun ys => ?_, fun ys hp => ?_⟩
  · exact ⟨ys.sum, Sum_slice_spec ys, by rw [Map_sum_spec ys double, sum_map_double]⟩
  · refine ⟨wrap64 ys.sum, SumInt64_slice_spec ys, ?_⟩
    rw [SumInt64_spec _ _ (SliceIterator.wf_fromSlice ys)]
    simp only [Map, Iterator.elems, SliceIterator.remaining_fromSlice]
    have h := wrap64_sum_map_double64 ys 0
    simp only [zero_add] at h
    rw [h, wrap64_two_mul]
  · have h90 : (sampleInts.map double).sum = 90 := by decide
    rw [Map_sum_spec ys double, (hp.map double).sum_eq, h90]

theorem Map_collect_pointwise_witness :
    [(3 : Int), 1, 4, 0, 9, 2, 6, 5, 8, 7].Perm sampleInts ∧
      Sum (Map Iterator.slice double) (FromSlice [(3 : Int), 1, 4, 0, 9, 2, 6, 5, 8, 7]) =
        some (90, (FromSlice [(3 : Int), 1, 4, 0, 9, 2, 6, 5, 8, 7]).atEnd) :=
  ⟨by decide, (Map_collect_pointwise ([] : List Int) (fun (x : Int) => x)).2.2.2.2.2
    [3, 1, 4, 0, 9, 2, 6, 5, 8, 7] (by decide)⟩

/-- C12: `Sum` does not depend on the order of the input: when `ys` is a
permutation of `xs`, `Sum(FromSlice(xs))` and `Sum(FromSlice(ys))` return the same
value, in every commutative additive monoid of elements and also for Go's `int`
with its wrap-around addition; `Sum` of the empty iterator is 0; and for every
permutation of `0..9` the result is 45. -/
theorem Sum_perm_invariant [Inhabited T] [AddCommMonoid T] :
    (∀ xs ys : List T, xs.Perm ys → ∃ v,
        Sum Iterator.slice (FromSlice xs) = some (v, (FromSlice xs).atEnd) ∧
          Sum Iterator.slice (FromSlice ys) = some (v, (FromSlice ys).atEnd)) ∧
      (∀ xs ys : List Int, xs.Perm ys → ∃ v,
        SumInt64 Iterator.slice (FromSlice xs) = some (v, (FromSlice xs).atEnd) ∧
          SumInt64 Iterator.slice (FromSlice ys) = some (v, (FromSlice ys).atEnd)) ∧
      Sum Iterator.slice (Empty : SliceIterator T) = some (0, Empty) ∧
      SumInt64 Iterator.slice (Empty : SliceIterator Int) = some (0, Empty) ∧
      (∀ ys : List Int, ys.Perm sampleInts →
        Sum Iterator.slice (FromSlice ys) = some (45, (FromSlice ys).atEnd) ∧
          SumInt64 Iterator.slice (FromSlice ys) = some (45, (FromSlice ys).atEnd)) := by
  refine ⟨fun xs ys hp => ⟨xs.sum, Sum_slice_spec xs, ?_⟩,
    fun xs ys hp => ⟨wrap64 xs.sum, SumInt64_slice_spec xs, ?_⟩, ?_, ?_, fun ys hp => ⟨?_, ?_⟩⟩
  · rw [Sum_slice_spec ys, hp.sum_eq]
  · rw [SumInt64_slice_spec ys, hp.sum_eq]
  · have := Sum_slice_spec ([] : List T)
    simpa [Empty, FromSlice, SliceIterator.atEnd] using this
  · decide
  · have h45 : sampleInts.sum = 45 := by decide
    rw [Sum_slice_spec ys, hp.sum_eq, h45]
  · have h45 : wrap64 sampleInts.sum = 45 := by decide
    rw [SumInt64_slice_spec ys, hp.sum_eq, h45]

theorem Sum_perm_invariant_witness :
    [(9 : Int), 8, 7, 6, 5, 4, 3, 2, 1, 0].Perm sampleInts ∧
      Sum Iterator.slice (FromSlice [(9 : Int), 8, 7, 6, 5, 4, 3, 2, 1, 0]) =
        some (45, (FromSlice [(9 : Int), 8, 7, 6, 5, 4, 3, 2, 1, 0]).atEnd) :=
  ⟨by decide, ((Sum_perm_invariant (T := Int)).2.2.2.2
    [9, 8, 7, 6, 5, 4, 3, 2, 1, 0] (by decide)).1⟩

/-! ## `Max`, `Min`, `MaxBy`, `MinBy` -/

theorem foldl_max_spec [LinearOrder T] (es : List T) :
    ∀ e : T, List.foldl (fun a b => if a > b then a else b) e es ∈ e :: es ∧
      ∀ x ∈ e :: es, x ≤ List.foldl (fun a b => if a > b then a else b) e es := by
  induction es with
  | nil => intro e; simp
  | cons b es ih =>
    intro e
    obtain ⟨hm, hle⟩ := ih (if e > b then e else b)
    simp only [List.foldl_cons]
    refine ⟨?_, ?_⟩
    · rcases List.mem_cons.1 hm with h | h
      · rw [h]
        split_ifs <;> simp
      · simp [h]
    · have h0 := hle _ (List.mem_cons_self _ _)
      intro x hx
      rcases List.mem_cons.1 hx with h | h
      · rw [h]
        refine le_trans ?_ h0
        split_ifs with hgt
        · exact le_refl _
        · exact le_of_not_lt hgt
      · rcases List.mem_cons.1 h with h | h
        · rw [h]
          refine le_trans ?_ h0
          split_ifs with hgt
          · exact le_of_lt hgt
          · exact le_refl _
        · exact hle x (List.mem_cons_of_mem _ h)

theorem foldl_min_spec [LinearOrder T] (es : List T) :
    ∀ e : T, List.foldl (fun a b => if a < b then a else b) e es ∈ e :: es ∧
      ∀ x ∈ e :: es, List.foldl (fun a b => if a < b then a else b) e es ≤ x := by
  induction es with
  | nil => intro e; simp
  | cons b es ih =>
    intro e
    obtain ⟨hm, hle⟩ := ih (if e < b then e else b)
    simp only [List.foldl_cons]
    refine ⟨?_, ?_⟩
    · rcases List.mem_cons.1 hm with h | h
      · rw [h]
        split_ifs <;> simp
      · simp [h]
    · have h0 := hle _ (List.mem_cons_self _ _)
      intro x hx
      rcases List.mem_cons.1 hx with h | h
      · rw [h]
        refine le_trans h0 ?_
        split_ifs with hlt
        · exact le_refl _
        · exact le_of_not_lt hlt
      · rcases List.mem_cons.1 h with h | h
        · rw [h]
          refine le_trans h0 ?_
          split_ifs with hlt
          · exact le_of_lt hlt
          · exact le_refl _
        · exact hle x (List.mem_cons_of_mem _ h)

theorem Reduce_fromSlice_cons [Inhabited T] (e : T) (es : List T) (step : T → T → T) :
    Reduce Iterator.slice (FromSlice (e :: es)) step =
      some ((List.foldl step e es, true), (FromSlice (e :: es)).atEnd) :=
  Reduce_spec_cons Iterator.slice _ (SliceIterator.wf_fromSlice _) step e es
    (by simp [Iterator.elems, SliceIterator.remaining_fromSlice])

theorem Reduce_fromSlice_nil [Inhabited T] (step : T → T → T) :
    Reduce Iterator.slice (FromSlice ([] : List T)) step =
      some ((default, false), FromSlice ([] : List T)) := by
  have := Reduce_spec_nil Iterator.slice (FromSlice ([] : List T))
    (SliceIterator.wf_fromSlice _) step
    (by simp [Iterator.elems, SliceIterator.remaining_fromSlice])
  simpa [Iterator.zero, FromSlice, SliceIterator.atEnd] using this

/-- C13: over a totally ordered element type, on a non-empty slice `xs`,
`Max(FromSlice(xs))` returns `(m, true)` with `m` an element of `xs` and
`x <= m` for every `x` in `xs`, and `Min` returns `(m, true)` with `m` an element
of `xs` and `m <= x` for every `x` in `xs`; on the empty slice both return the
zero value and false. -/
theorem Max_Min_extremum [LinearOrder T] [Inhabited T] (xs : List T) :
    (xs ≠ [] → ∃ m, Max Iterator.slice (FromSlice xs) = some ((m, true), (FromSlice xs).atEnd) ∧
        m ∈ xs ∧ ∀ x ∈ xs, x ≤ m) ∧
      (xs ≠ [] → ∃ m, Min Iterator.slice (FromSlice xs) = some ((m, true), (FromSlice xs).atEnd) ∧
        m ∈ xs ∧ ∀ x ∈ xs, m ≤ x) ∧
      Max Iterator.slice (FromSlice ([] : List T)) =
        some ((default, false), FromSlice ([] : List T)) ∧
      Min Iterator.slice (FromSlice ([] : List T)) =
        some ((default, false), FromSlice ([] : List T)) := by
  refine ⟨fun hne => ?_, fun hne => ?_, Reduce_fromSlice_nil _, Reduce_fromSlice_nil _⟩
  · cases xs with
    | nil => exact absurd rfl hne
    | cons e es =>
      obtain ⟨hm, hle⟩ := foldl_max_spec es e
      exact ⟨_, Reduce_fromSlice_cons e es _, hm, hle⟩
  · cases xs with
    | nil => exact absurd rfl hne
    | cons e es =>
      obtain ⟨hm, hle⟩ := foldl_min_spec es e
      exact ⟨_, Reduce_fromSlice_cons e es _, hm, hle⟩

theorem Max_Min_extremum_witness :
    [(3 : Int), 1, 4, 1, 5] ≠ [] ∧
      ∃ m, Max Iterator.slice (FromSlice [(3 : Int), 1, 4, 1, 5]) =
          some ((m, true), (FromSlice [(3 : Int), 1, 4, 1, 5]).atEnd) ∧
        m ∈ [(3 : Int), 1, 4, 1, 5] ∧ ∀ x ∈ [(3 : Int), 1, 4, 1, 5], x ≤ m :=
  ⟨by decide, (Max_Min_extremum [(3 : Int), 1, 4, 1, 5]).1 (by decide)⟩

/-- Negative transitivity of a strict weak ordering. -/
theorem StrictWeakOrder.neg_trans {less : T → T → Bool} (h : StrictWeakOrder less) (a b c : T)
    (hac : less a c = true) : less a b = true ∨ less b c = true := by
  obtain ⟨_, htrans, hinc⟩ := h
  by_contra hcon
  push_neg at hcon
  obtain ⟨hab, hbc⟩ := hcon
  have hab : less a b = false := by simpa using hab
  have hbc : less b c = false := by simpa using hbc
  have hba : less b a = false := by
    by_contra hx
    have hx : less b a = true := by simpa using hx
    rw [htrans b a c hx hac] at hbc
    exact Bool.noConfusion hbc
  have hcb : less c b = false := by
    by_contra hx
    have hx : less c b = true := by simpa using hx
    rw [htrans a c b hac hx] at hab
    exact Bool.noConfusion hab
  rw [(hinc a b c hab hba hbc hcb).1] at hac
  exact Bool.noConfusion hac

theorem StrictWeakOrder.asymm {less : T → T → Bool} (h : StrictWeakOrder less) (a b : T)
    (hab : less a b = true) : less b a = false := by
  by_contra hx
  have hx : less b a = true := by simpa using hx
  have := h.2.1 a b a hab hx
  rw [h.1 a] at this
  exact Bool.noConfusion this

/-- The fold of `MaxBy`: the result sits where every earlier element ranks
strictly lower and no later element ranks higher. -/
theorem foldl_maxBy_spec {less : T → T → Bool} (h : StrictWeakOrder less) (es : List T) :
    ∀ (p1 p2 : List T) (m : T), (∀ x ∈ p1, less x m = true) → (∀ x ∈ p2, less m x = false) →
      ∃ q1 q2, p1 ++ m :: p2 ++ es =
          q1 ++ List.foldl (fun a b => if less a b then b else a) m es :: q2 ∧
        (∀ x ∈ q1, less x (List.foldl (fun a b => if less a b then b else a) m es) = true) ∧
        (∀ x ∈ q2, less (List.foldl (fun a b => if less a b then b else a) m es) x = false) := by
  induction es with
  | nil =>
    intro p1 p2 m h1 h2
    exact ⟨p1, p2, by simp, h1, h2⟩
  | cons b es ih =>
    intro p1 p2 m h1 h2
    by_cases hmb : less m b = true
    · obtain ⟨q1, q2, heq, hq1, hq2⟩ := ih (p1 ++ m :: p2) [] b (by
        intro x hx
        rcases List.mem_append.1 hx with hx | hx
        · exact h.2.1 x m b (h1 x hx) hmb
        · rcases List.mem_cons.1 hx with hx | hx
          · rw [hx]; exact hmb
          · rcases h.neg_trans m x b hmb with h3 | h3
            · rw [h2 x hx] at h3
              exact Bool.noConfusion h3
            · exact h3) (by simp)
      refine ⟨q1, q2, ?_, ?_, ?_⟩
      · simp only [List.foldl_cons, hmb, if_true]
        rw [← heq]
        simp
      · simpa only [List.foldl_cons, hmb, if_true] using hq1
      · simpa only [List.foldl_cons, hmb, if_true] using hq2
    · have hmb0 : less m b = false := by simpa using hmb
      obtain ⟨q1, q2, heq, hq1, hq2⟩ := ih p1 (p2 ++ [b]) m h1 (by
        intro x hx
        rcases List.mem_append.1 hx with hx | hx
        · exact h2 x hx
        · rw [List.mem_singleton.1 hx]; exact hmb0)
      refine ⟨q1, q2, ?_, ?_, ?_⟩
      · simp only [List.foldl_cons, hmb0, Bool.false_eq_true, if_false]
        rw [← heq]
        simp
      · simpa only [List.foldl_cons, hmb0, Bool.false_eq_true, if_false] using hq1
      · simpa only [List.foldl_cons, hmb0, Bool.false_eq_true, if_false] using hq2

/-- The fold of `MinBy`: the result sits where no earlier element ranks lower
and every later element ranks strictly higher. -/
theorem foldl_minBy_spec {less : T → T → Bool} (h : StrictWeakOrder less) (es : List T) :
    ∀ (p1 p2 : List T) (m : T), (∀ x ∈ p1, less x m = false) → (∀ x ∈ p2, less m x = true) →
      ∃ q1 q2, p1 ++ m :: p2 ++ es =
          q1 ++ List.foldl (fun a b => if less a b then a else b) m es :: q2 ∧
        (∀ x ∈ q1, less x (List.foldl (fun a b => if less a b then a else b) m es) = false) ∧
        (∀ x ∈ q2, less (List.foldl (fun a b => if less a b then a else b) m es) x = true) := by
  induction es with
  | nil =>
    intro p1 p2 m h1 h2
    exact ⟨p1, p2, by simp, h1, h2⟩
  | cons b es ih =>
    intro p1 p2 m h1 h2
    by_cases hmb : less m b = true
    · obtain ⟨q1, q2, heq, hq1, hq2⟩ := ih p1 (p2 ++ [b]) m h1 (by
        intro x hx
        rcases List.mem_append.1 hx with hx | hx
        · exact h2 x hx
        · rw [List.mem_singleton.1 hx]; exact hmb)
      refine ⟨q1, q2, ?_, ?_, ?_⟩
      · simp only [List.foldl_cons, hmb, if_true]
        rw [← heq]
        simp
      · simpa only [List.foldl_cons, hmb, if_true] using hq1
      · simpa only [List.foldl_cons, hmb, if_true] using hq2
    · have hmb0 : less m b = false := by simpa using hmb
      obtain ⟨q1, q2, heq, hq1, hq2⟩ := ih (p1 ++ m :: p2) [] b (by
        intro x hx
        rcases List.mem_append.1 hx with hx | hx
        · by_contra hxb
          have hxb : less x b = true := by simpa using hxb
          rcases h.neg_trans x m b hxb with h3 | h3
          · rw [h1 x hx] at h3
            exact Bool.noConfusion h3
          · rw [hmb0] at h3
            exact Bool.noConfusion h3
        · rcases List.mem_cons.1 hx with hx | hx
          · rw [hx]; exact hmb0
          · by_contra hxb
            have hxb : less x b = true := by simpa using hxb
            have := h.2.1 m x b (h2 x hx) hxb
            rw [hmb0] at this
            exact Bool.noConfusion this) (by simp)
      refine ⟨q1, q2, ?_, ?_, ?_⟩
      · simp only [List.foldl_cons, hmb0, Bool.false_eq_true, if_false]
        rw [← heq]
        simp
      · simpa only [List.foldl_cons, hmb0, Bool.false_eq_true, if_false] using hq1
      · simpa only [List.foldl_cons, hmb0, Bool.false_eq_true, if_false] using hq2

theorem lenLess_strictWeakOrder : StrictWeakOrder lenLess := by
  refine ⟨fun a => ?_, fun a b c => ?_, fun a b c => ?_⟩
  · simp [lenLess]
  · simp only [lenLess, decide_eq_true_eq]
    omega
  · simp only [lenLess, decide_eq_false_iff_not]
    omega

/-- C14: `MaxBy` keeps `b` when `less(a, b)` is true and the accumulated `a`
otherwise; on a non-empty slice `xs` and a strict weak ordering `less` it
returns `(m, true)` with `m` an element of `xs` such that `less(m, x)` is false
for every `x` in `xs`, and `m` is the earliest such element: every element before
it ranks strictly lower than `m`, so none of them is maximal. -/
theorem MaxBy_earliest_maximal [Inhabited T] (xs : List T) (hne : xs ≠ [])
    (less : T → T → Bool) (h : StrictWeakOrder less) :
    (∀ a b : T, MaxBy Iterator.slice (FromSlice [a, b]) less =
        some ((if less a b then b else a, true), (FromSlice [a, b]).atEnd)) ∧
      ∃ m p1 p2,
        MaxBy Iterator.slice (FromSlice xs) less = some ((m, true), (FromSlice xs).atEnd) ∧
          xs = p1 ++ m :: p2 ∧ m ∈ xs ∧ (∀ x ∈ xs, less m x = false) ∧
          (∀ x ∈ p1, less x m = true) ∧ (∀ x ∈ p1, ∃ y ∈ xs, less x y = true) := by
  refine ⟨fun a b => Reduce_fromSlice_cons a [b] _, ?_⟩
  cases xs with
  | nil => exact absurd rfl hne
  | cons e es =>
    obtain ⟨q1, q2, heq, hq1, hq2⟩ := foldl_maxBy_spec h es [] [] e (by simp) (by simp)
    simp only [List.nil_append, List.singleton_append] at heq
    have hmem : List.foldl (fun a b => if less a b then b else a) e es ∈ e :: es := by
      rw [heq]
      simp
    refine ⟨_, q1, q2, Reduce_fromSlice_cons e es _, heq, hmem, ?_, hq1, ?_⟩
    · intro x hx
      rw [heq] at hx
      rcases List.mem_append.1 hx with hx | hx
      · exact h.asymm _ _ (hq1 x hx)
      · rcases List.mem_cons.1 hx with hx | hx
        · rw [hx]; exact h.1 _
        · exact hq2 x hx
    · intro x hx
      exact ⟨_, hmem, hq1 x hx⟩

theorem MaxBy_earliest_maximal_witness :
    data ≠ [] ∧ StrictWeakOrder lenLess ∧
      ∃ m p1 p2,
        MaxBy Iterator.slice (FromSlice data) lenLess =
            some ((m, true), (FromSlice data).atEnd) ∧
          data = p1 ++ m :: p2 ∧ m ∈ data ∧ (∀ x ∈ data, lenLess m x = false) ∧
          (∀ x ∈ p1, lenLess x m = true) ∧ (∀ x ∈ p1, ∃ y ∈ data, lenLess x y = true) :=
  ⟨by decide, lenLess_strictWeakOrder,
    (MaxBy_earliest_maximal data (by decide) lenLess lenLess_strictWeakOrder).2⟩

/-- C15: `MinBy` keeps the accumulated `a` when `less(a, b)` is true and `b`
otherwise; on a non-empty slice `xs` and a strict weak ordering `less` it
returns `(m, true)` with `m` an element of `xs` such that `less(x, m)` is false
for every `x` in `xs`, and `m` is the latest such element: every element after it
ranks strictly higher than `m`, so none of them is minimal. -/
theorem MinBy_latest_minimal [Inhabited T] (xs : List T) (hne : xs ≠ [])
    (less : T → T → Bool) (h : StrictWeakOrder less) :
    (∀ a b : T, MinBy Iterator.slice (FromSlice [a, b]) less =
        some ((if less a b then a else b, true), (FromSlice [a, b]).atEnd)) ∧
      ∃ m p1 p2,
        MinBy Iterator.slice (FromSlice xs) less = some ((m, true), (FromSlice xs).atEnd) ∧
          xs = p1 ++ m :: p2 ∧ m ∈ xs ∧ (∀ x ∈ xs, less x m = false) ∧
          (∀ x ∈ p2, less m x = true) ∧ (∀ x ∈ p2, ∃ y ∈ xs, less y x = true) := by
  refine ⟨fun a b => Reduce_fromSlice_cons a [b] _, ?_⟩
  cases xs with
  | nil => exact absurd rfl hne
  | cons e es =>
    obtain ⟨q1, q2, heq, hq1, hq2⟩ := foldl_minBy_spec h es [] [] e (by simp) (by simp)
    simp only [List.nil_append, List.singleton_append] at heq
    have hmem : List.foldl (fun a b => if less a b then a else b) e es ∈ e :: es := by
      rw [heq]
      simp
    refine ⟨_, q1, q2, Reduce_fromSlice_cons e es _, heq, hmem, ?_, hq2, ?_⟩
    · intro x hx
      rw [heq] at hx
      rcases List.mem_append.1 hx with hx | hx
      · exact hq1 x hx
      · rcases List.mem_cons.1 hx with hx | hx
        · rw [hx]; exact h.1 _
        · exact h.asymm _ _ (hq2 x hx)
    · intro x hx
      exact ⟨_, hmem, hq2 x hx⟩

theorem MinBy_latest_minimal_witness :
    data ≠ [] ∧ StrictWeakOrder lenLess ∧
      ∃ m p1 p2,
        MinBy Iterator.slice (FromSlice data) lenLess =
            some ((m, true), (FromSlice data).atEnd) ∧
          data = p1 ++ m :: p2 ∧ m ∈ data ∧ (∀ x ∈ data, lenLess x m = false) ∧
          (∀ x ∈ p2, lenLess m x = true) ∧ (∀ x ∈ p2, ∃ y ∈ data, lenLess y x = true) :=
  ⟨by decide, lenLess_strictWeakOrder,
    (MinBy_latest_minimal data (by decide) lenLess lenLess_strictWeakOrder).2⟩

/-- The expectations of `TestComprehensive` for `MaxBy` and `MinBy` on `data`,
and the two tie-break directions on a slice of three tied strings. -/
theorem MaxBy_MinBy_test_data :
    MaxBy Iterator.slice (FromSlice data) lenLess =
        some (("shiny buttons", true), (FromSlice data).atEnd) ∧
      MinBy Iterator.slice (FromSlice data) lenLess =
        some (("is", true), (FromSlice data).atEnd) ∧
      MaxBy Iterator.slice (FromSlice ["ab", "cd", "ef"]) lenLess =
        some (("ab", true), (FromSlice ["ab", "cd", "ef"]).atEnd) ∧
      MinBy Iterator.slice (FromSlice ["ab", "cd", "ef"]) lenLess =
        some (("ef", true), (FromSlice ["ab", "cd", "ef"]).atEnd) := by
  decide

/-! ## `Advance` of a filter -/

/-- C16: `Advance(n)`, `n >= 0`, on `Filter(FromSlice(xs), p)` returns
`min(n, k)` with `k` the number of elements of `xs` satisfying `p`, and `Collect`
afterwards returns the satisfying elements without the first `min(n, k)` of
them; the same holds at every cursor in the backing range, for the elements that
remain there. -/
theorem Filter_advance_post_filter [Inhabited T] (p : T → Bool) (n : Int) (hn : 0 ≤ n) :
    (∀ xs : List T, ∃ s1,
        (Filter Iterator.slice p).Advance n (FromSlice xs) =
            some (Min.min n ((xs.filter p).length : Int), s1) ∧
          (Filter Iterator.slice p).Collect s1 =
            some ((xs.filter p).drop (Min.min n ((xs.filter p).length : Int)).toNat,
              s1.atEnd)) ∧
      (∀ s : SliceIterator T, s.WF → ∃ s1,
        (Filter Iterator.slice p).Advance n s =
            some (Min.min n ((s.remaining.filter p).length : Int), s1) ∧
          (Filter Iterator.slice p).Collect s1 =
            some ((s.remaining.filter p).drop
              (Min.min n ((s.remaining.filter p).length : Int)).toNat, s1.atEnd)) := by
  have key : ∀ s : SliceIterator T, s.WF → ∃ s1,
      (Filter Iterator.slice p).Advance n s =
          some (Min.min n ((s.remaining.filter p).length : Int), s1) ∧
        (Filter Iterator.slice p).Collect s1 =
          some ((s.remaining.filter p).drop
            (Min.min n ((s.remaining.filter p).length : Int)).toNat, s1.atEnd) := by
    intro s h
    obtain ⟨s1, h1, hs1, _, hr⟩ := (Iterator.filterIter Iterator.slice p).advance_spec n hn s h
    simp only [Iterator.elems] at h1 hr
    refine ⟨s1, h1, ?_⟩
    have hc := collectLoop_spec (Iterator.filterIter Iterator.slice p) (loopFuel s1) s1 [] hs1
      (le_refl _)
    simp only [Iterator.elems, List.nil_append, hr] at hc
    have hd : (s.remaining.filter p).drop n.toNat =
        (s.remaining.filter p).drop
          (Min.min n ((s.remaining.filter p).length : Int)).toNat := by
      by_cases hle : n ≤ ((s.remaining.filter p).length : Int)
      · rw [min_eq_left hle]
      · rw [min_eq_right (by omega), List.drop_eq_nil_of_le (by omega),
          List.drop_eq_nil_of_le (by omega)]
    rw [← hd]
    exact hc
  refine ⟨fun xs => ?_, key⟩
  have := key (FromSlice xs) (SliceIterator.wf_fromSlice xs)
  rwa [SliceIterator.remaining_fromSlice] at this

theorem Filter_advance_post_filter_witness :
    (0 : Int) ≤ 2 ∧
      ∃ s1, (Filter Iterator.slice isEven).Advance 2 (FromSlice [(1 : Int), 3, 4, 5, 6, 7, 8]) =
          some (Min.min 2 ((([(1 : Int), 3, 4, 5, 6, 7, 8].filter isEven).length : Nat) : Int),
            s1) ∧
        (Filter Iterator.slice isEven).Collect s1 =
          some (([(1 : Int), 3, 4, 5, 6, 7, 8].filter isEven).drop
            (Min.min 2
              ((([(1 : Int), 3, 4, 5, 6, 7, 8].filter isEven).length : Nat) : Int)).toNat,
            s1.atEnd) :=
  ⟨by decide, (Filter_advance_post_filter isEven 2 (by decide)).1 [1, 3, 4, 5, 6, 7, 8]⟩

/-- An example run: `Advance(2)` over the even elements of `1, 3, 4, 5, 6, 7, 8`
returns 2 after five pulls from the slice, and `Collect` then returns the one
even element left. -/
theorem Filter_advance_example_run :
    (Filter Iterator.slice isEven).Advance 2 (FromSlice [(1 : Int), 3, 4, 5, 6, 7, 8]) =
        some (2, ⟨[1, 3, 4, 5, 6, 7, 8], 5⟩) ∧
      (Filter Iterator.slice isEven).Collect ⟨[(1 : Int), 3, 4, 5, 6, 7, 8], 5⟩ =
        some ([8], ⟨[1, 3, 4, 5, 6, 7, 8], 7⟩) := by
  decide

/-! ## Exhaustion -/

theorem filterNextLoop_false (next : SliceIterator S → Result S (T × Bool)) (filter : T → Bool)
    (fuel : Nat) :
    ∀ (s s1 : SliceIterator S) (v : T),
      filterNextLoop next filter fuel s = some ((v, false), s1) →
        ∃ s0, next s0 = some ((v, false), s1) := by
  induction fuel with
  | zero =>
    intro s s1 v h
    simp [filterNextLoop] at h
  | succ fuel ih =>
    intro s s1 v h
    simp only [filterNextLoop] at h
    cases hn : next s with
    | none => simp [hn] at h
    | some r =>
      obtain ⟨⟨t, ok⟩, s2⟩ := r
      simp only [hn] at h
      cases ok with
      | false =>
        simp only [Bool.false_eq_true, if_false, Option.some.injEq, Prod.mk.injEq, and_true] at h
        obtain ⟨rfl, rfl⟩ := h
        exact ⟨s, hn⟩
      | true =>
        simp only [if_true] at h
        by_cases hp : filter t = true
        · simp [hp] at h
        · simp only [hp, Bool.false_eq_true, if_false] at h
          exact ih s2 s1 v h

/-- A `Next` that returned false returned the zero value, and `Next` in the
state it left returns the zero value and false again and leaves that state. -/
theorem Iterator.next_false_stable (i : Iterator S T) :
    ∀ (s s1 : SliceIterator S) (v : T), i.Next s = some ((v, false), s1) →
      v = i.zero ∧ i.Next s1 = some ((i.zero, false), s1) := by
  induction i with
  | slice =>
    intro s s1 v h
    simp only [Iterator.Next, SliceIterator.Next] at h
    by_cases hpos : s.EstimatedRemaining > 0
    · rw [if_pos hpos] at h
      by_cases hneg : s.idx < 0
      · simp [hneg] at h
      · rw [if_neg hneg] at h
        cases hg : s.base[s.idx.toNat]? with
        | none => simp [hg] at h
        | some out => simp [hg] at h
    · rw [if_neg hpos] at h
      simp only [Option.some.injEq, Prod.mk.injEq, and_true] at h
      obtain ⟨rfl, rfl⟩ := h
      refine ⟨rfl, ?_⟩
      simp only [Iterator.Next, SliceIterator.Next, if_neg hpos, Iterator.zero]
  | mapIter i mapper ih =>
    intro s s1 v h
    simp only [Iterator.Next] at h
    cases hn : i.Next s with
    | none => simp [hn] at h
    | some r =>
      obtain ⟨⟨item, ok⟩, s2⟩ := r
      simp only [hn] at h
      cases ok with
      | true => simp at h
      | false =>
        simp only [Bool.false_eq_true, if_false, Option.some.injEq, Prod.mk.injEq, and_true] at h
        obtain ⟨rfl, rfl⟩ := h
        obtain ⟨_, h2⟩ := ih s s2 item hn
        refine ⟨rfl, ?_⟩
        simp [Iterator.Next, h2, Iterator.zero]
  | filterIter i filter ih =>
    intro s s1 v h
    simp only [Iterator.Next] at h
    obtain ⟨s0, h0⟩ := filterNextLoop_false _ filter _ s s1 v h
    obtain ⟨hv, h2⟩ := ih s0 s1 v h0
    refine ⟨hv, ?_⟩
    simp [Iterator.Next, loopFuel, filterNextLoop, h2, Iterator.zero]

theorem nextN_stable (next : SliceIterator S → Result S (T × Bool)) (z : T)
    (s1 : SliceIterator S) (h : next s1 = some ((z, false), s1)) (n : Nat) :
    nextN next n s1 = some (0, s1) := by
  induction n with
  | zero => rfl
  | succ n ih => simp [nextN, h, ih]

/-- C17: for every chain of `Map` and `Filter` over a slice source, in any
state: once `Next` has returned false, the value it returned with it is the zero
value, and every later `Next` returns the zero value and false again, without
failing and without changing the state. -/
theorem Next_exhaustion_permanent (i : Iterator S T) (s s1 : SliceIterator S) (v : T)
    (h : i.Next s = some ((v, false), s1)) :
    v = i.zero ∧ i.Next s1 = some ((i.zero, false), s1) ∧
      ∀ n : Nat, nextN i.Next n s1 = some (0, s1) := by
  obtain ⟨hv, h2⟩ := i.next_false_stable s s1 v h
  exact ⟨hv, h2, fun n => nextN_stable i.Next i.zero s1 h2 n⟩

theorem Next_exhaustion_permanent_witness :
    (Filter (Map Iterator.slice double) isEven).Next ⟨[(1 : Int), 2, 3], 3⟩ =
        some ((0, false), ⟨[(1 : Int), 2, 3], 3⟩) ∧
      (Filter (Map Iterator.slice double) isEven).Next ⟨[(1 : Int), 2, 3], 3⟩ =
        some (((Filter (Map Iterator.slice double) isEven).zero, false),
          ⟨[(1 : Int), 2, 3], 3⟩) :=
  ⟨by decide, (Next_exhaustion_permanent (Filter (Map Iterator.slice double) isEven)
    ⟨[(1 : Int), 2, 3], 3⟩ ⟨[(1 : Int), 2, 3], 3⟩ 0 (by decide)).2.1⟩

/-! ## `Reset` and `Empty` -/

/-- C18: after any sequence of `Next` and `Advance(n)`, `n >= 0`, calls on an
iterator over `FromSlice(xs)`, full exhaustion included, `Reset` puts the slice
iterator back into the state `FromSlice(xs)`: `EstimatedRemaining` is `len(xs)`,
and both `Collect` and pulling with `Next` to the end yield `xs` in its order. -/
theorem Reset_restores_initial [Inhabited S] (i : Iterator S T) (xs : List S)
    (s : SliceIterator S) (h : Reachable i xs s) :
    s.Reset = FromSlice xs ∧
      Iterator.slice.EstimatedRemaining s.Reset = (xs.length : Int) ∧
      Iterator.slice.Collect s.Reset = some (xs, s.Reset) ∧
      collectLoop Iterator.slice.Next (loopFuel s.Reset) [] s.Reset =
        some (xs, s.Reset.atEnd) := by
  obtain ⟨_, hb⟩ := h.wf
  have hreset : s.Reset = FromSlice xs := by
    simp [SliceIterator.Reset, FromSlice, hb]
  rw [hreset]
  refine ⟨rfl, ?_, ?_, ?_⟩
  · simp [Iterator.EstimatedRemaining, SliceIterator.EstimatedRemaining, FromSlice]
  · have := SliceIterator.collect_spec _ (SliceIterator.wf_fromSlice xs)
    simpa [Iterator.Collect, SliceIterator.remaining_fromSlice] using this
  · have := collectLoop_spec Iterator.slice _ _ [] (SliceIterator.wf_fromSlice xs) (le_refl _)
    simpa [Iterator.elems, SliceIterator.remaining_fromSlice] using this

theorem Reset_restores_initial_witness :
    Reachable Iterator.slice data ⟨data, 7⟩ ∧
      Iterator.slice.EstimatedRemaining (SliceIterator.Reset ⟨data, 7⟩) =
        (data.length : Int) :=
  ⟨Reachable.advance (n := 20) (k := 7) Reachable.start (by decide) (by decide),
    (Reset_restores_initial Iterator.slice data ⟨data, 7⟩
      (Reachable.advance (n := 20) (k := 7) Reachable.start (by decide) (by decide))).2.1⟩

/-- C19: on the iterator returned by `Empty`, `Next` returns the zero value and
false; `Max`, `Min`, `MaxBy` and `MinBy` for every `less`, and `Reduce` for every
`step` return false as their flag; `Count` returns 0, `Sum` returns 0 and
`Collect` returns a sequence of length 0.  Each of them leaves the iterator in
the state `Empty`, so the same holds when they are applied one after another. -/
theorem Empty_all_absent [Inhabited T] [LT T] [DecidableRel (fun (a b : T) => a < b)]
    [Zero T] [Add T] :
    Iterator.slice.Next (Empty : SliceIterator T) = some ((default, false), Empty) ∧
      Max Iterator.slice (Empty : SliceIterator T) = some ((default, false), Empty) ∧
      Min Iterator.slice (Empty : SliceIterator T) = some ((default, false), Empty) ∧
      (∀ less : T → T → Bool,
        MaxBy Iterator.slice (Empty : SliceIterator T) less = some ((default, false), Empty)) ∧
      (∀ less : T → T → Bool,
        MinBy Iterator.slice (Empty : SliceIterator T) less = some ((default, false), Empty)) ∧
      (∀ step : T → T → T,
        Reduce Iterator.slice (Empty : SliceIterator T) step = some ((default, false), Empty)) ∧
      Count Iterator.slice (Empty : SliceIterator T) = some (0, Empty) ∧
      Sum Iterator.slice (Empty : SliceIterator T) = some (0, Empty) ∧
      ∃ out, Iterator.slice.Collect (Empty : SliceIterator T) = some (out, Empty) ∧
        out.length = 0 := by
  have hr : ∀ step : T → T → T,
      Reduce Iterator.slice (Empty : SliceIterator T) step = some ((default, false), Empty) :=
    fun step => Reduce_fromSlice_nil step
  have hend : (Empty : SliceIterator T).atEnd = Empty := rfl
  have hrem : Iterator.slice.elems (Empty : SliceIterator T).remaining = [] := rfl
  have hwf : (Empty : SliceIterator T).WF := SliceIterator.wf_fromSlice _
  refine ⟨?_, hr _, hr _, fun less => hr _, fun less => hr _, hr, ?_, ?_, [], ?_, rfl⟩
  · have := (Empty : SliceIterator T).next_nil hwf rfl
    simpa [Iterator.Next, hend] using this
  · rw [Count_spec _ _ hwf, hrem, hend]
    rfl
  · rw [Sum, Fold_spec _ _ hwf, hrem, hend]
    rfl
  · have := SliceIterator.collect_spec _ hwf
    simpa [Iterator.Collect] using this

/-! ## `Advance` with a negative count -/

/-- C20, evaluated on `FromSlice [1, 2, 3]`: `Advance(-1)` on the slice source
returns -1 and leaves the cursor at -1, and the following `Next` indexes the slice
out of range; from cursor 2, `Advance(-1)` moves the cursor back to 1, so the
element at 1 is produced again.  A `filterIter` over the same slice leaves the
cursor alone for `Advance(-1)`. -/
theorem Advance_slice_negative_backward :
    Iterator.slice.Advance (-1) (FromSlice [(1 : Int), 2, 3]) =
        some (-1, ⟨[1, 2, 3], -1⟩) ∧
      Iterator.slice.Next ⟨[(1 : Int), 2, 3], -1⟩ = none ∧
      Iterator.slice.Advance (-1) ⟨[(1 : Int), 2, 3], 2⟩ = some (-1, ⟨[1, 2, 3], 1⟩) ∧
      Iterator.slice.Next ⟨[(1 : Int), 2, 3], 1⟩ = some ((2, true), ⟨[1, 2, 3], 2⟩) ∧
      (Filter Iterator.slice (fun (_ : Int) => true)).Advance (-1) (FromSlice [(1 : Int), 2, 3]) =
        some (-1, FromSlice [(1 : Int), 2, 3]) := by
  decide

end GoIter
